import Mathlib

/-!
Verification of the `diskusage` concurrent disk-usage reporter.

This file is a shallow embedding, in Lean 4, of the core of the Go program:

* the size formatter `humanizeBytes` (main.go),
* the column-width resolver `ComputeSizeMapsAndWidths` (format helper file),
* the worker fold that aggregates one file's metadata into the directory /
  user / group maps (main.go, worker loop),
* the snapshot codec: document construction, canonical ordering and the
  manually streamed JSON writer `StreamSummary`, and the sniffing reader
  `LoadSummary` (jsonio.go).

Modelling conventions:

* Go `int64` values are modelled as `Int` (no overflow occurs in the
  modelled arithmetic: the only arithmetic on sizes is addition of file
  sizes, and the formatter's arithmetic is division).
* Go maps are modelled as association lists (`List (key × value)`); the
  unspecified iteration order of a Go map corresponds to the order of the
  association list, and "the same map" corresponds to permutation of
  association lists with no duplicate keys.
* Go strings are modelled as Lean `String`; for the ASCII strings the
  program manipulates, Go's byte-wise operations (length, `<`) agree with
  the character-wise Lean ones (UTF-8 is order- and length-preserving on
  ASCII).
* `float64` arithmetic in `humanizeBytes` is modelled exactly over `ℚ`:
  the conversion `float64(s)` is exact for `|s| < 2 ^ 53`, and binary
  floating-point division by `1024 = 2 ^ 10` is always exact, so on that
  range the model computes precisely the values the Go code computes.
  Theorems that depend on the rendered digits carry the `s < 2 ^ 53`
  bound; reachability facts (which branch returns) are insensitive to the
  sub-ULP rounding above that bound.
-/

/-! ### Decimal rendering (model of Go's `%d` / `strconv.FormatInt`) -/

/-- Decimal digit characters of `n`, most significant first.  The first
argument is recursion fuel; `natChars` supplies `n + 1`, which the lemmas
below show is always enough. -/
def natCharsAux : Nat → Nat → List Char
  | 0, _ => []
  | fuel + 1, n =>
      if n < 10 then [Char.ofNat (48 + n)]
      else natCharsAux fuel (n / 10) ++ [Char.ofNat (48 + n % 10)]

/-- Decimal digit characters of `n`, most significant first. -/
def natChars (n : Nat) : List Char := natCharsAux (n + 1) n

/-- Model of Go's decimal rendering of an `int64` (`%d`,
`strconv.FormatInt(·, 10)`, and the `encoding/json` rendering of an
integer field): optional minus sign followed by the decimal digits. -/
def intRepr (i : Int) : String :=
  if i < 0 then "-" ++ String.mk (natChars i.natAbs) else String.mk (natChars i.natAbs)

/-- Go's `IsDigit`-style check for a decimal digit character. -/
def isDigitChar (c : Char) : Bool := 48 ≤ c.toNat && c.toNat ≤ 57

/-- Numeric value accumulated from most-significant-first digit characters. -/
def digitsVal (cs : List Char) : Nat :=
  cs.foldl (fun a c => a * 10 + (c.toNat - 48)) 0

theorem digitChar_spec (k : Nat) (h : k < 10) :
    (Char.ofNat (48 + k)).toNat = 48 + k ∧ isDigitChar (Char.ofNat (48 + k)) = true := by
  interval_cases k <;> exact ⟨by decide, by decide⟩

theorem natCharsAux_spec : ∀ (fuel n : Nat), n < fuel →
    (natCharsAux fuel n ≠ [] ∧ (∀ c ∈ natCharsAux fuel n, isDigitChar c = true) ∧
      digitsVal (natCharsAux fuel n) = n)
  | 0, n, h => absurd h (Nat.not_lt_zero n)
  | fuel + 1, n, h => by
      rw [natCharsAux]
      by_cases h10 : n < 10
      · rw [if_pos h10]
        obtain ⟨hval, hdig⟩ := digitChar_spec n h10
        refine ⟨by simp, ?_, ?_⟩
        · intro c hc
          rw [List.mem_singleton] at hc
          rw [hc]; exact hdig
        · simp [digitsVal, hval]
      · rw [if_neg h10]
        have hlt : n / 10 < fuel := by omega
        obtain ⟨hne, hdig, hval⟩ := natCharsAux_spec fuel (n / 10) hlt
        have hm10 : n % 10 < 10 := Nat.mod_lt n (by omega)
        obtain ⟨hval2, hdig2⟩ := digitChar_spec (n % 10) hm10
        refine ⟨by simp, ?_, ?_⟩
        · intro c hc
          rw [List.mem_append] at hc
          rcases hc with hc | hc
          · exact hdig c hc
          · rw [List.mem_singleton] at hc
            rw [hc]; exact hdig2
        · rw [digitsVal, List.foldl_append]
          have : (natCharsAux fuel (n / 10)).foldl (fun a c => a * 10 + (c.toNat - 48)) 0
              = n / 10 := hval
          simp only [List.foldl_cons, List.foldl_nil, this, hval2]
          omega

theorem natChars_ne_nil (n : Nat) : natChars n ≠ [] :=
  (natCharsAux_spec (n + 1) n (Nat.lt_succ_self n)).1

theorem natChars_digits (n : Nat) : ∀ c ∈ natChars n, isDigitChar c = true :=
  (natCharsAux_spec (n + 1) n (Nat.lt_succ_self n)).2.1

theorem digitsVal_natChars (n : Nat) : digitsVal (natChars n) = n :=
  (natCharsAux_spec (n + 1) n (Nat.lt_succ_self n)).2.2

/-! ### The size formatter `humanizeBytes` (main.go lines 39-56)

The Go function converts `s` to `float64` and repeatedly divides by 1024.
Those floats are modelled exactly by rationals (see the header comment).
`fmt1` models `fmt.Sprintf("%.1f", d)`: Go's formatter prints the
correctly-rounded decimal with ties to even. -/

/-- The unit suffixes the Go loop ranges over. -/
def sizeSuffixes : List String := ["KB", "MB", "GB", "TB", "PB", "EB"]

/-- Round to the nearest integer, ties to even (the rounding `%.1f`
applies to the scaled value). -/
def roundHalfEven (q : ℚ) : Int :=
  let f := ⌊q⌋
  if q - f < 1 / 2 then f
  else if 1 / 2 < q - f then f + 1
  else if f % 2 = 0 then f else f + 1

/-- Model of `fmt.Sprintf("%.1f", q)` for `0 ≤ q`: one fractional digit,
correctly rounded with ties to even. -/
def fmt1 (q : ℚ) : String :=
  let n := roundHalfEven (10 * q)
  intRepr (n / 10) ++ "." ++ intRepr (n % 10)

/-- The `for _, suffix := range [...]` loop of `humanizeBytes`: divide by
1024, return at the first unit where the divided value drops below 1024;
`none` when the loop exhausts the suffix list (the fallback line). -/
def unitLoop (d : ℚ) : List String → Option String
  | [] => none
  | suffix :: rest =>
      let d2 := d / 1024
      if d2 < 1024 then some (fmt1 d2 ++ suffix) else unitLoop d2 rest

/-- Model of `humanizeBytes` (main.go lines 39-56). -/
def humanizeBytes (s : Int) : String :=
  if s < 0 then "-"
  else if s < 1024 then intRepr s ++ "B"
  else (unitLoop (s : ℚ) sizeSuffixes).getD (intRepr s ++ "B")


/-! #### Behaviour of the unit loop -/

theorem roundHalfEven_intCast (n : Int) : roundHalfEven ((n : ℚ)) = n := by
  rw [roundHalfEven]
  simp only [Int.floor_intCast]
  rw [if_pos]
  rw [sub_self]
  norm_num

theorem fmt1_of_mul_eq (q : ℚ) (n : Int) (h : 10 * q = (n : ℚ)) :
    fmt1 q = intRepr (n / 10) ++ "." ++ intRepr (n % 10) := by
  rw [fmt1]
  simp only [h, roundHalfEven_intCast]

theorem unitLoop_eq : ∀ (k : Nat) (d : ℚ) (sufs : List String), k < sufs.length →
    (∀ j : Nat, j < k → (1024 : ℚ) ≤ d / 1024 ^ (j + 1)) → d / 1024 ^ (k + 1) < 1024 →
    unitLoop d sufs = some (fmt1 (d / 1024 ^ (k + 1)) ++ sufs.getD k "")
  | 0, d, [], hk, _, _ => absurd hk (by simp)
  | 0, d, suffix :: rest, _, _, hhi => by
      have hhi1 : d / 1024 < 1024 := by simpa using hhi
      rw [unitLoop]
      simp only [if_pos hhi1]
      simp
  | k + 1, d, [], hk, _, _ => absurd hk (by simp)
  | k + 1, d, suffix :: rest, hk, hlo, hhi => by
      rw [unitLoop]
      have h0 : (1024 : ℚ) ≤ d / 1024 := by
        have := hlo 0 (Nat.succ_pos k)
        simpa [pow_one] using this
      rw [if_neg (by exact not_lt.mpr h0)]
      have hdiv : ∀ m : Nat, d / 1024 / 1024 ^ (m + 1) = d / 1024 ^ (m + 2) := by
        intro m
        rw [div_div, ← pow_succ']
      have hlo2 : ∀ j : Nat, j < k → (1024 : ℚ) ≤ (d / 1024) / 1024 ^ (j + 1) := by
        intro j hj
        rw [hdiv j]
        exact hlo (j + 1) (by omega)
      have hhi2 : (d / 1024) / 1024 ^ (k + 1) < 1024 := by
        rw [hdiv k]
        exact hhi
      have := unitLoop_eq k (d / 1024) rest (by simpa using hk) hlo2 hhi2
      rw [this, hdiv k]
      rfl

theorem qdiv_lt (s : Int) (j : Nat) (h : s < 1024 ^ (j + 2)) : (s : ℚ) / 1024 ^ (j + 1) < 1024 := by
  rw [div_lt_iff₀ (by positivity)]
  calc (s : ℚ) < ((1024 ^ (j + 2) : Int) : ℚ) := by exact_mod_cast h
    _ = 1024 * 1024 ^ (j + 1) := by push_cast; ring

theorem qdiv_ge (s : Int) (j : Nat) (h : 1024 ^ (j + 2) ≤ s) :
    (1024 : ℚ) ≤ (s : ℚ) / 1024 ^ (j + 1) := by
  rw [le_div_iff₀ (by positivity)]
  calc (1024 : ℚ) * 1024 ^ (j + 1) = ((1024 ^ (j + 2) : Int) : ℚ) := by push_cast; ring
    _ ≤ (s : ℚ) := by exact_mod_cast h

theorem humanize_unit (s : Int) (k : Nat) (hk : k < 6)
    (h1 : (1024 : Int) ^ (k + 1) ≤ s) (h2 : s < 1024 ^ (k + 2)) :
    unitLoop (s : ℚ) sizeSuffixes
        = some (fmt1 ((s : ℚ) / 1024 ^ (k + 1)) ++ sizeSuffixes.getD k "") ∧
    humanizeBytes s = fmt1 ((s : ℚ) / 1024 ^ (k + 1)) ++ sizeSuffixes.getD k "" := by
  have hs1024 : (1024 : Int) ≤ s := by
    calc (1024 : Int) = 1024 ^ 1 := (pow_one 1024).symm
      _ ≤ 1024 ^ (k + 1) := pow_le_pow_right₀ (by norm_num) (by omega)
      _ ≤ s := h1
  have hloop : unitLoop (s : ℚ) sizeSuffixes
      = some (fmt1 ((s : ℚ) / 1024 ^ (k + 1)) ++ sizeSuffixes.getD k "") := by
    refine unitLoop_eq k (s : ℚ) sizeSuffixes (by simpa [sizeSuffixes] using hk) ?_ (qdiv_lt s k h2)
    intro j hj
    refine qdiv_ge s j ?_
    calc (1024 : Int) ^ (j + 2) ≤ 1024 ^ (k + 1) := pow_le_pow_right₀ (by norm_num) (by omega)
      _ ≤ s := h1
  refine ⟨hloop, ?_⟩
  rw [humanizeBytes, if_neg (by omega), if_neg (by omega), hloop]
  rfl

theorem humanize_small (s : Int) (h0 : 0 ≤ s) (h : s < 1024) :
    humanizeBytes s = intRepr s ++ "B" := by
  rw [humanizeBytes, if_neg (by omega), if_pos h]

theorem exists_unit_level (s : Int) (h1 : 1024 ≤ s) (h2 : s < 1024 ^ 7) :
    ∃ k : Nat, k < 6 ∧ (1024 : Int) ^ (k + 1) ≤ s ∧ s < 1024 ^ (k + 2) := by
  by_cases c2 : s < 1024 ^ 2
  · exact ⟨0, by norm_num, by simpa using h1, by simpa using c2⟩
  by_cases c3 : s < 1024 ^ 3
  · exact ⟨1, by norm_num, by simpa using not_lt.mp c2, by simpa using c3⟩
  by_cases c4 : s < 1024 ^ 4
  · exact ⟨2, by norm_num, by simpa using not_lt.mp c3, by simpa using c4⟩
  by_cases c5 : s < 1024 ^ 5
  · exact ⟨3, by norm_num, by simpa using not_lt.mp c4, by simpa using c5⟩
  by_cases c6 : s < 1024 ^ 6
  · exact ⟨4, by norm_num, by simpa using not_lt.mp c5, by simpa using c6⟩
  · exact ⟨5, by norm_num, by simpa using not_lt.mp c6, by simpa using h2⟩

/-- C4: `humanizeBytes` renders negative sizes as a literal dash; sizes below
1024 as the decimal integer followed by `B`; and sizes at or above 1024 by
repeatedly dividing by 1024 through the unit sequence KB..EB, stopping at the
first unit where the divided value is below 1024 and rendering with exactly one
fractional digit; with the six concrete examples of the specification.  The
general unit clause carries `s < 2 ^ 53`, the range on which `float64`
arithmetic is exact and the `ℚ` model coincides with the Go code. -/
theorem humanizeBytes_formatting :
    (∀ s : Int, s < 0 → humanizeBytes s = "-") ∧
    (∀ s : Int, 0 ≤ s → s < 1024 → humanizeBytes s = intRepr s ++ "B") ∧
    (∀ s : Int, 1024 ≤ s → s < 2 ^ 53 →
      ∃ k : Nat, k < 6 ∧ (1024 : Int) ^ (k + 1) ≤ s ∧ s < 1024 ^ (k + 2) ∧
        humanizeBytes s = fmt1 ((s : ℚ) / 1024 ^ (k + 1)) ++ sizeSuffixes.getD k "") ∧
    humanizeBytes 0 = "0B" ∧ humanizeBytes 512 = "512B" ∧ humanizeBytes 1024 = "1.0KB" ∧
    humanizeBytes 1536 = "1.5KB" ∧ humanizeBytes 1048576 = "1.0MB" ∧
    humanizeBytes (5 * 1024 ^ 3) = "5.0GB" := by
  have hgen : ∀ s : Int, 1024 ≤ s → s < 1024 ^ 7 →
      ∃ k : Nat, k < 6 ∧ (1024 : Int) ^ (k + 1) ≤ s ∧ s < 1024 ^ (k + 2) ∧
        humanizeBytes s = fmt1 ((s : ℚ) / 1024 ^ (k + 1)) ++ sizeSuffixes.getD k "" := by
    intro s hs1 hs2
    obtain ⟨k, hk, h1, h2⟩ := exists_unit_level s hs1 hs2
    exact ⟨k, hk, h1, h2, (humanize_unit s k hk h1 h2).2⟩
  refine ⟨?_, humanize_small, ?_, ?_, ?_, ?_, ?_, ?_, ?_⟩
  · intro s hs
    rw [humanizeBytes, if_pos hs]
  · intro s hs1 hs2
    exact hgen s hs1 (by omega)
  · decide
  · decide
  · have h := (humanize_unit 1024 0 (by norm_num) (by norm_num) (by norm_num)).2
    rw [h, fmt1_of_mul_eq _ 10 (by norm_num)]
    decide
  · have h := (humanize_unit 1536 0 (by norm_num) (by norm_num) (by norm_num)).2
    rw [h, fmt1_of_mul_eq _ 15 (by norm_num)]
    decide
  · have h := (humanize_unit 1048576 1 (by norm_num) (by norm_num) (by norm_num)).2
    rw [h, fmt1_of_mul_eq _ 10 (by norm_num)]
    decide
  · have h := (humanize_unit (5 * 1024 ^ 3) 2 (by norm_num) (by norm_num) (by norm_num)).2
    rw [h, fmt1_of_mul_eq _ 50 (by norm_num)]
    decide

/-- C10: for every non-negative `int64` input, `humanizeBytes` never reaches
the fallback line after the unit loop: inputs below 1024 take the plain-byte
branch, and every input in `[1024, 2^63)` returns from inside the loop with one
of the six suffixes (the fallback would require `s ≥ 1024 ^ 7 = 2 ^ 70`, beyond
the `int64` range). -/
theorem humanizeBytes_loop_total :
    ∀ s : Int, 0 ≤ s → s < 2 ^ 63 →
      (s < 1024 ∧ humanizeBytes s = intRepr s ++ "B") ∨
      (∃ k : Nat, k < 6 ∧
        unitLoop (s : ℚ) sizeSuffixes
          = some (fmt1 ((s : ℚ) / 1024 ^ (k + 1)) ++ sizeSuffixes.getD k "") ∧
        humanizeBytes s = fmt1 ((s : ℚ) / 1024 ^ (k + 1)) ++ sizeSuffixes.getD k "") := by
  intro s h0 h63
  by_cases hsmall : s < 1024
  · exact Or.inl ⟨hsmall, humanize_small s h0 hsmall⟩
  · right
    obtain ⟨k, hk, h1, h2⟩ := exists_unit_level s (not_lt.mp hsmall) (by omega)
    obtain ⟨hl, hh⟩ := humanize_unit s k hk h1 h2
    exact ⟨k, hk, hl, hh⟩

theorem humanizeBytes_loop_total_witness :
    ((5000 : Int) < 1024 ∧ humanizeBytes 5000 = intRepr 5000 ++ "B") ∨
    (∃ k : Nat, k < 6 ∧
      unitLoop ((5000 : Int) : ℚ) sizeSuffixes
        = some (fmt1 (((5000 : Int) : ℚ) / 1024 ^ (k + 1)) ++ sizeSuffixes.getD k "") ∧
      humanizeBytes 5000 = fmt1 (((5000 : Int) : ℚ) / 1024 ^ (k + 1)) ++ sizeSuffixes.getD k "") :=
  humanizeBytes_loop_total 5000 (by decide) (by decide)

theorem humanizeBytes_formatting_witness :
    humanizeBytes (-7) = "-" ∧ humanizeBytes 100 = "100B" ∧
    (∃ k : Nat, k < 6 ∧ (1024 : Int) ^ (k + 1) ≤ 2048 ∧ (2048 : Int) < 1024 ^ (k + 2) ∧
      humanizeBytes 2048 = fmt1 (((2048 : Int) : ℚ) / 1024 ^ (k + 1)) ++ sizeSuffixes.getD k "") :=
  ⟨humanizeBytes_formatting.1 (-7) (by decide),
   by
    have h := humanizeBytes_formatting.2.1 100 (by decide) (by decide)
    rw [h]
    decide,
   humanizeBytes_formatting.2.2.1 2048 (by decide) (by decide)⟩

/-! ### The aggregate value types (main.go lines 24-37) -/

structure DirStat where
  size : Int
  files : Int
deriving DecidableEq

structure UserStat where
  size : Int
  files : Int
deriving DecidableEq

structure GroupStat where
  size : Int
  files : Int
deriving DecidableEq

/-! ### The column-width resolver `ComputeSizeMapsAndWidths`

Model of the helper in the format file (unnamed part_001).  The Go function
returns a 5-tuple `(sizeStrMap, userSizeStr, groupSizeStr, maxSizeWidth,
maxFilesWidth)`; the model packages it as a structure.  Go map iteration is
modelled by folding over the association list; widths are `Int` like Go's
`int`, and `len` of the produced ASCII strings is the character count. -/

structure WidthsResult where
  sizeStrMap : List (String × String)
  userSizeStr : List (String × String)
  groupSizeStr : List (String × String)
  maxSizeWidth : Int
  maxFilesWidth : Int
deriving DecidableEq

def ComputeSizeMapsAndWidths (dirSizes : List (String × Int)) (dirStats : List (String × DirStat))
    (userStats : List (String × UserStat)) (groupStats : List (String × GroupStat))
    (bytesFlag : Bool) (sizeWidthOverride filesWidthOverride : Int) : WidthsResult :=
  let step1 : List (String × String) × Int × Int :=
    dirSizes.foldl (fun acc ps =>
      let combined := if bytesFlag then intRepr ps.2 else humanizeBytes ps.2
      let msw := if (combined.length : Int) > acc.2.1 then (combined.length : Int) else acc.2.1
      let mfw := match List.lookup ps.1 dirStats with
        | some st =>
            let fsStr := intRepr st.files
            if (fsStr.length : Int) > acc.2.2 then (fsStr.length : Int) else acc.2.2
        | none => acc.2.2
      (acc.1 ++ [(ps.1, combined)], msw, mfw)) ([], 0, 0)
  let step2 : List (String × String) × Int × Int :=
    userStats.foldl (fun acc pu =>
      let s := if bytesFlag then intRepr pu.2.size else humanizeBytes pu.2.size
      let msw := if (s.length : Int) > acc.2.1 then (s.length : Int) else acc.2.1
      let fsStr := intRepr pu.2.files
      let mfw := if (fsStr.length : Int) > acc.2.2 then (fsStr.length : Int) else acc.2.2
      (acc.1 ++ [(pu.1, s)], msw, mfw)) ([], step1.2.1, step1.2.2)
  let step3 : List (String × String) × Int × Int :=
    groupStats.foldl (fun acc pg =>
      let s := if bytesFlag then intRepr pg.2.size else humanizeBytes pg.2.size
      let msw := if (s.length : Int) > acc.2.1 then (s.length : Int) else acc.2.1
      let fsStr := intRepr pg.2.files
      let mfw := if (fsStr.length : Int) > acc.2.2 then (fsStr.length : Int) else acc.2.2
      (acc.1 ++ [(pg.1, s)], msw, mfw)) ([], step2.2.1, step2.2.2)
  let msw1 := if sizeWidthOverride > 0 then sizeWidthOverride else step3.2.1
  let mfw1 := if filesWidthOverride > 0 then filesWidthOverride else step3.2.2
  let msw2 := if msw1 < 4 then 4 else msw1
  let mfw2 := if mfw1 < 3 then 3 else mfw1
  ⟨step1.1, step2.1, step3.1, msw2, mfw2⟩

/-- C8 counterexample: the claim "the returned width is exactly the override
value" fails at the explicit input `sizeWidthOverride = filesWidthOverride = 2`
(positive), where the resolver returns the minimum floors 4 and 3: the
overrides are applied before the floors (part_001 lines 63-76). -/
theorem computeWidths_override_counterexample :
    (0 : Int) < 2 ∧
    (ComputeSizeMapsAndWidths [] [] [] [] false 2 2).maxSizeWidth ≠ 2 ∧
    (ComputeSizeMapsAndWidths [] [] [] [] false 2 2).maxFilesWidth ≠ 2 := by decide

/-- C8 (amended): for every input, a positive size (files) width override
replaces the computed width outright and is then clamped below by the
legibility floor 4 (3): the result is `max override floor`, hence exactly the
override whenever the override is at least the floor. -/
theorem computeWidths_override (dirSizes : List (String × Int))
    (dirStats : List (String × DirStat)) (userStats : List (String × UserStat))
    (groupStats : List (String × GroupStat)) (bytesFlag : Bool) (o fo : Int)
    (ho : 0 < o) (hfo : 0 < fo) :
    (ComputeSizeMapsAndWidths dirSizes dirStats userStats groupStats bytesFlag o fo).maxSizeWidth
      = max o 4 ∧
    (ComputeSizeMapsAndWidths dirSizes dirStats userStats groupStats bytesFlag o fo).maxFilesWidth
      = max fo 3 := by
  simp only [ComputeSizeMapsAndWidths]
  rw [if_pos ho, if_pos hfo]
  constructor
  · by_cases h4 : o < 4
    · rw [if_pos h4]; omega
    · rw [if_neg h4]; omega
  · by_cases h3 : fo < 3
    · rw [if_pos h3]; omega
    · rw [if_neg h3]; omega

/-- Witness for `computeWidths_override` at a concrete input. -/
theorem computeWidths_override_witness :
    (0 : Int) < 9 ∧ (0 : Int) < 7 ∧
    (ComputeSizeMapsAndWidths [] [] [] [] true 9 7).maxSizeWidth = max 9 4 ∧
    (ComputeSizeMapsAndWidths [] [] [] [] true 9 7).maxFilesWidth = max 7 3 :=
  ⟨by decide, by decide,
   (computeWidths_override [] [] [] [] true 9 7 (by decide) (by decide)).1,
   (computeWidths_override [] [] [] [] true 9 7 (by decide) (by decide)).2⟩

/-! ### The worker fold (main.go lines 134-203)

The concurrent pipeline stats each file and folds its contribution into the
shared maps under a single mutex.  The directory map is modelled as a
function from relative-path component lists to optional stats; the user and
group maps as association lists (the worker only ever inserts or updates,
so any Go map iteration order is a permutation of the insertion order). -/

/-- Model of `strconv.FormatUint(uint64(id), 10)`. -/
def natRepr (n : Nat) : String := String.mk (natChars n)

/-- The data the worker loop extracts from one processed file: the path of
its containing directory relative to the scan root as a list of path
components (`[]` stands for the root key `"."`), the numeric owner/group
ids from the stat result, and the byte size.  On a clean relative path the
ancestor walk `p = filepath.Dir(p)` of main.go drops the last path
component, which is how the fold below recurses. -/
structure RawFile where
  rel : List String
  uid : Nat
  gid : Nat
  size : Int
deriving DecidableEq

/-- The external name-resolution collaborator (`os/user.LookupId` /
`LookupGroupId`), keyed by the decimal id string; `none` models a failed
lookup. -/
structure Resolver where
  lookupUserId : String → Option String
  lookupGroupId : String → Option String

/-- One `dirStats[p].Size += size; dirStats[p].Files += 1` step, creating the
zero entry first when the key is absent (main.go lines 166-170). -/
def bump1 (o : Option DirStat) (size : Int) : DirStat :=
  match o with
  | none => { size := size, files := 1 }
  | some st => { size := st.size + size, files := st.files + 1 }

def dirAdd (m : List String → Option DirStat) (k : List String) (size : Int)
    (q : List String) : Option DirStat :=
  if q = k then some (bump1 (m k) size) else m q

/-- The ancestor-chain fold of the worker (main.go lines 164-175): add the
file's size and a +1 count at `p`, stop if `p` is the root, otherwise
continue at the parent. -/
def dirFoldChain (m : List String → Option DirStat) (p : List String) (size : Int) :
    List String → Option DirStat :=
  if h : p = [] then dirAdd m p size
  else dirFoldChain (dirAdd m p size) p.dropLast size
termination_by p.length
decreasing_by
  simp only [List.length_dropLast]
  have := List.length_pos.mpr h
  omega

/-- `q` is a key on the ancestor chain of `p` (including `p` itself and the
root `[]`): exactly the prefixes of `p`. -/
def isAnc (q p : List String) : Prop := q = p.take q.length

instance (q p : List String) : Decidable (isAnc q p) := by
  unfold isAnc; infer_instance

theorem isAnc_nil_right (q : List String) : isAnc q [] ↔ q = [] := by
  unfold isAnc
  simp

theorem isAnc_refl (p : List String) : isAnc p p := by
  unfold isAnc
  rw [List.take_length]

theorem isAnc_nil_left (p : List String) : isAnc [] p := by
  unfold isAnc
  simp

theorem isAnc_length_le {q p : List String} (h : isAnc q p) : q.length ≤ p.length := by
  unfold isAnc at h
  have := congrArg List.length h
  rw [List.length_take] at this
  omega

theorem isAnc_iff {q p : List String} (hp : p ≠ []) :
    isAnc q p ↔ q = p ∨ isAnc q p.dropLast := by
  constructor
  · intro h
    by_cases hlen : q.length = p.length
    · left
      rw [h, hlen, List.take_length]
    · right
      have hle := isAnc_length_le h
      have hlt : q.length < p.length := by omega
      unfold isAnc at h ⊢
      rw [List.dropLast_eq_take, List.take_take]
      rw [show min q.length (p.length - 1) = q.length by omega]
      exact h
  · intro h
    rcases h with rfl | h
    · exact isAnc_refl q
    · have hle := isAnc_length_le h
      rw [List.length_dropLast] at hle
      unfold isAnc at h ⊢
      rw [List.dropLast_eq_take, List.take_take] at h
      rw [show min q.length (p.length - 1) = q.length by omega] at h
      exact h

theorem isAnc_dropLast {q p : List String} (h : isAnc q p) (hq : q ≠ []) :
    isAnc q.dropLast p := by
  have hq0 := List.length_pos.mpr hq
  unfold isAnc at h ⊢
  rw [List.length_dropLast, List.dropLast_eq_take]
  set n := q.length with hn
  calc List.take (n - 1) q = List.take (n - 1) (List.take n p) := by rw [h]
    _ = List.take (min (n - 1) n) p := List.take_take _ _ _
    _ = List.take (n - 1) p := by congr 1; omega

theorem dirFoldChain_pointwise (p : List String) (m : List String → Option DirStat)
    (size : Int) (q : List String) :
    dirFoldChain m p size q = if isAnc q p then some (bump1 (m q) size) else m q := by
  rw [dirFoldChain]
  by_cases hp : p = []
  · subst hp
    rw [dif_pos rfl, dirAdd]
    by_cases hq : q = []
    · subst hq
      rw [if_pos rfl, if_pos (isAnc_nil_left [])]
    · rw [if_neg hq, if_neg (by rw [isAnc_nil_right]; exact hq)]
  · rw [dif_neg hp]
    rw [dirFoldChain_pointwise p.dropLast (dirAdd m p size) size q]
    by_cases hanc : isAnc q p.dropLast
    · have hlen : q.length < p.length := by
        have h1 := isAnc_length_le hanc
        rw [List.length_dropLast] at h1
        have h2 := List.length_pos.mpr hp
        omega
      have hqp : q ≠ p := by
        intro e
        rw [e] at hlen
        omega
      rw [if_pos hanc, if_pos ((isAnc_iff hp).mpr (Or.inr hanc))]
      rw [dirAdd, if_neg hqp]
    · rw [if_neg hanc, dirAdd]
      by_cases hqp : q = p
      · subst hqp
        rw [if_pos rfl, if_pos (isAnc_refl q)]
      · rw [if_neg hqp, if_neg (by rw [isAnc_iff hp]; push_neg; exact ⟨hqp, hanc⟩)]
termination_by p.length
decreasing_by
  simp only [List.length_dropLast]
  have := List.length_pos.mpr hp
  omega

/-- The user key the worker aggregates under (main.go lines 177-184): the
resolved name, or the decimal id string when resolution fails. -/
def workerUserKey (r : Resolver) (uid : Nat) : String :=
  let uidStr := natRepr uid
  match r.lookupUserId uidStr with
  | some name => name
  | none => uidStr

def workerGroupKey (r : Resolver) (gid : Nat) : String :=
  let gidStr := natRepr gid
  match r.lookupGroupId gidStr with
  | some name => name
  | none => gidStr

/-- `userStats[uname].Size += size; ... .Files += 1` with lazy creation
(main.go lines 190-194), on the association-list model of the map. -/
def bumpUser (m : List (String × UserStat)) (k : String) (size : Int) :
    List (String × UserStat) :=
  match m with
  | [] => [(k, { size := size, files := 1 })]
  | (k2, st) :: rest =>
      if k2 = k then (k2, { size := st.size + size, files := st.files + 1 }) :: rest
      else (k2, st) :: bumpUser rest k size

def bumpGroup (m : List (String × GroupStat)) (k : String) (size : Int) :
    List (String × GroupStat) :=
  match m with
  | [] => [(k, { size := size, files := 1 })]
  | (k2, st) :: rest =>
      if k2 = k then (k2, { size := st.size + size, files := st.files + 1 }) :: rest
      else (k2, st) :: bumpGroup rest k size

/-- The three aggregate maps guarded by the worker mutex. -/
structure ScanState where
  dirStats : List String → Option DirStat
  userStats : List (String × UserStat)
  groupStats : List (String × GroupStat)

/-- One worker fold: the mutations performed for one file inside the
critical section (main.go lines 163-200). -/
def foldFile (r : Resolver) (st : ScanState) (f : RawFile) : ScanState :=
  { dirStats := dirFoldChain st.dirStats f.rel f.size
    userStats := bumpUser st.userStats (workerUserKey r f.uid) f.size
    groupStats := bumpGroup st.groupStats (workerGroupKey r f.gid) f.size }

def initialScanState : ScanState :=
  { dirStats := fun _ => none, userStats := [], groupStats := [] }

/-- The scan: fold every enumerated file into the aggregate state.  The Go
workers interleave arbitrarily; since each fold is performed atomically
under one mutex, a scan is some sequential order of the folds, and the
theorems below hold for every order because they hold for every list. -/
def runScan (r : Resolver) (files : List RawFile) : ScanState :=
  files.foldl (foldFile r) initialScanState

/-- The rollup invariant: every stored stat is non-negative, and every
non-root directory's stat is dominated by its parent's. -/
def ScanInv (m : List String → Option DirStat) : Prop :=
  (∀ d st, m d = some st → 0 ≤ st.size ∧ 0 ≤ st.files) ∧
  (∀ d st, m d = some st → d ≠ [] →
    ∃ pst, m d.dropLast = some pst ∧ st.size ≤ pst.size ∧ st.files ≤ pst.files)

theorem scanInv_fold (m : List String → Option DirStat) (p : List String) (size : Int)
    (hsz : 0 ≤ size) (hinv : ScanInv m) : ScanInv (dirFoldChain m p size) := by
  obtain ⟨hnn, hmono⟩ := hinv
  constructor
  · intro d st hd
    rw [dirFoldChain_pointwise] at hd
    by_cases hanc : isAnc d p
    · rw [if_pos hanc] at hd
      injection hd with hd
      rw [← hd]
      cases hm : m d with
      | none => simp only [bump1]; omega
      | some st0 =>
          obtain ⟨h1, h2⟩ := hnn d st0 hm
          simp only [bump1]
          constructor <;> omega
    · rw [if_neg hanc] at hd
      exact hnn d st hd
  · intro d st hd hdne
    rw [dirFoldChain_pointwise] at hd
    rw [dirFoldChain_pointwise]
    by_cases hanc : isAnc d p
    · rw [if_pos hanc] at hd
      rw [if_pos (isAnc_dropLast hanc hdne)]
      injection hd with hd
      refine ⟨bump1 (m d.dropLast) size, rfl, ?_⟩
      rw [← hd]
      cases hm : m d with
      | none =>
          cases hmp : m d.dropLast with
          | none => simp only [bump1]; exact ⟨le_refl _, le_refl _⟩
          | some pst =>
              obtain ⟨h1, h2⟩ := hnn d.dropLast pst hmp
              simp only [bump1]
              constructor <;> omega
      | some st0 =>
          obtain ⟨pst, hp1, hp2, hp3⟩ := hmono d st0 hm hdne
          rw [hp1]
          simp only [bump1]
          constructor <;> omega
    · rw [if_neg hanc] at hd
      obtain ⟨pst, hp1, hp2, hp3⟩ := hmono d st hd hdne
      by_cases hancp : isAnc d.dropLast p
      · rw [if_pos hancp, hp1]
        obtain ⟨h1, h2⟩ := hnn d.dropLast pst hp1
        refine ⟨_, rfl, ?_⟩
        simp only [bump1]
        constructor <;> omega
      · rw [if_neg hancp]
        exact ⟨pst, hp1, hp2, hp3⟩

theorem scanInv_initial : ScanInv initialScanState.dirStats := by
  constructor
  · intro d st hd
    simp [initialScanState] at hd
  · intro d st hd
    simp [initialScanState] at hd

theorem scanInv_foldl (r : Resolver) (files : List RawFile) :
    ∀ (st : ScanState), (∀ f ∈ files, 0 ≤ f.size) → ScanInv st.dirStats →
      ScanInv ((files.foldl (foldFile r) st).dirStats) := by
  induction files with
  | nil => intro st _ h; exact h
  | cons f fs ih =>
      intro st hnn hinv
      rw [List.foldl_cons]
      refine ih (foldFile r st f) (fun g hg => hnn g (List.mem_cons_of_mem f hg)) ?_
      exact scanInv_fold st.dirStats f.rel f.size (hnn f (List.mem_cons_self f fs)) hinv

/-- The root entry `"."` of the directory map, defaulting to zero. -/
def rootStat (m : List String → Option DirStat) : DirStat :=
  (m []).getD { size := 0, files := 0 }

theorem dirFoldChain_root (m : List String → Option DirStat) (p : List String) (size : Int) :
    dirFoldChain m p size []
      = some { size := (rootStat m).size + size, files := (rootStat m).files + 1 } := by
  rw [dirFoldChain_pointwise, if_pos (isAnc_nil_left p)]
  cases hm : m [] with
  | none => simp [bump1, rootStat, hm]
  | some st => simp [bump1, rootStat, hm]

theorem foldFile_root (r : Resolver) (st : ScanState) (f : RawFile) :
    rootStat ((foldFile r st f).dirStats)
      = { size := (rootStat st.dirStats).size + f.size,
          files := (rootStat st.dirStats).files + 1 } := by
  show rootStat (dirFoldChain st.dirStats f.rel f.size) = _
  rw [rootStat, dirFoldChain_root, Option.getD_some]

theorem foldl_root (r : Resolver) (files : List RawFile) :
    ∀ st : ScanState,
      rootStat ((files.foldl (foldFile r) st).dirStats)
        = { size := (rootStat st.dirStats).size + (files.map RawFile.size).sum,
            files := (rootStat st.dirStats).files + (files.length : Int) } := by
  induction files with
  | nil => intro st; simp
  | cons f fs ih =>
      intro st
      rw [List.foldl_cons, ih (foldFile r st f), foldFile_root]
      simp only [List.map_cons, List.sum_cons, List.length_cons]
      congr 1
      · ring
      · push_cast
        ring

theorem foldl_root_some (r : Resolver) : ∀ (files : List RawFile) (st : ScanState),
    st.dirStats [] ≠ none ∨ files ≠ [] →
    ∃ v, ((files.foldl (foldFile r) st).dirStats) [] = some v := by
  intro files
  induction files with
  | nil =>
      intro st h
      rcases h with h | h
      · cases hm : st.dirStats [] with
        | none => exact absurd hm h
        | some v => exact ⟨v, hm⟩
      · exact absurd rfl h
  | cons f fs ih =>
      intro st _
      rw [List.foldl_cons]
      refine ih (foldFile r st f) (Or.inl ?_)
      show dirFoldChain st.dirStats f.rel f.size [] ≠ none
      rw [dirFoldChain_root]
      simp

/-- C2: after any scan (hence after every worker fold: a prefix of the fold
sequence is itself a scan) in which every folded size is non-negative, every
directory present in the map with a parent satisfies `size(p) ≥ size(d)` and
`files(p) ≥ files(d)`, and the root entry `"."` carries the sum of all folded
sizes and the folded file count (it exists whenever at least one file was
folded). -/
theorem scan_monotone_rollup (r : Resolver) (files : List RawFile)
    (hnn : ∀ f ∈ files, 0 ≤ f.size) :
    (∀ d st, (runScan r files).dirStats d = some st → d ≠ [] →
      ∃ pst, (runScan r files).dirStats d.dropLast = some pst ∧
        st.size ≤ pst.size ∧ st.files ≤ pst.files) ∧
    rootStat ((runScan r files).dirStats)
      = { size := (files.map RawFile.size).sum, files := (files.length : Int) } ∧
    (files ≠ [] → ∃ st, (runScan r files).dirStats [] = some st ∧
      st.size = (files.map RawFile.size).sum ∧ st.files = (files.length : Int)) := by
  have hroot : rootStat ((runScan r files).dirStats)
      = { size := (files.map RawFile.size).sum, files := (files.length : Int) } := by
    rw [runScan, foldl_root]
    simp [initialScanState, rootStat]
  refine ⟨(scanInv_foldl r files initialScanState hnn scanInv_initial).2, hroot, ?_⟩
  intro hne
  obtain ⟨v, hv⟩ := foldl_root_some r files initialScanState (Or.inr hne)
  have hval : rootStat ((runScan r files).dirStats) = v := by
    rw [rootStat]
    rw [show (runScan r files).dirStats [] = some v from hv]
    rfl
  refine ⟨v, hv, ?_, ?_⟩
  · rw [← hval, hroot]
  · rw [← hval, hroot]

def userSizeSum (m : List (String × UserStat)) : Int := (m.map (fun e => e.2.size)).sum

def userFilesSum (m : List (String × UserStat)) : Int := (m.map (fun e => e.2.files)).sum

def groupSizeSum (m : List (String × GroupStat)) : Int := (m.map (fun e => e.2.size)).sum

def groupFilesSum (m : List (String × GroupStat)) : Int := (m.map (fun e => e.2.files)).sum

theorem bumpUser_sums : ∀ (m : List (String × UserStat)) (k : String) (size : Int),
    userSizeSum (bumpUser m k size) = userSizeSum m + size ∧
    userFilesSum (bumpUser m k size) = userFilesSum m + 1
  | [], k, size => by simp [bumpUser, userSizeSum, userFilesSum]
  | (k2, st) :: rest, k, size => by
      rw [bumpUser]
      by_cases hk : k2 = k
      · rw [if_pos hk]
        simp only [userSizeSum, userFilesSum, List.map_cons, List.sum_cons]
        constructor <;> ring
      · rw [if_neg hk]
        obtain ⟨h1, h2⟩ := bumpUser_sums rest k size
        simp only [userSizeSum, userFilesSum, List.map_cons, List.sum_cons] at h1 h2 ⊢
        constructor <;> omega

theorem bumpGroup_sums : ∀ (m : List (String × GroupStat)) (k : String) (size : Int),
    groupSizeSum (bumpGroup m k size) = groupSizeSum m + size ∧
    groupFilesSum (bumpGroup m k size) = groupFilesSum m + 1
  | [], k, size => by simp [bumpGroup, groupSizeSum, groupFilesSum]
  | (k2, st) :: rest, k, size => by
      rw [bumpGroup]
      by_cases hk : k2 = k
      · rw [if_pos hk]
        simp only [groupSizeSum, groupFilesSum, List.map_cons, List.sum_cons]
        constructor <;> ring
      · rw [if_neg hk]
        obtain ⟨h1, h2⟩ := bumpGroup_sums rest k size
        simp only [groupSizeSum, groupFilesSum, List.map_cons, List.sum_cons] at h1 h2 ⊢
        constructor <;> omega

theorem foldl_user_group_sums (r : Resolver) (files : List RawFile) :
    ∀ st : ScanState,
      userSizeSum ((files.foldl (foldFile r) st).userStats)
          = userSizeSum st.userStats + (files.map RawFile.size).sum ∧
      userFilesSum ((files.foldl (foldFile r) st).userStats)
          = userFilesSum st.userStats + (files.length : Int) ∧
      groupSizeSum ((files.foldl (foldFile r) st).groupStats)
          = groupSizeSum st.groupStats + (files.map RawFile.size).sum ∧
      groupFilesSum ((files.foldl (foldFile r) st).groupStats)
          = groupFilesSum st.groupStats + (files.length : Int) := by
  induction files with
  | nil => intro st; simp
  | cons f fs ih =>
      intro st
      rw [List.foldl_cons]
      obtain ⟨i1, i2, i3, i4⟩ := ih (foldFile r st f)
      obtain ⟨u1, u2⟩ := bumpUser_sums st.userStats (workerUserKey r f.uid) f.size
      obtain ⟨g1, g2⟩ := bumpGroup_sums st.groupStats (workerGroupKey r f.gid) f.size
      have hu : (foldFile r st f).userStats = bumpUser st.userStats (workerUserKey r f.uid) f.size := rfl
      have hg : (foldFile r st f).groupStats = bumpGroup st.groupStats (workerGroupKey r f.gid) f.size := rfl
      rw [hu] at i1 i2
      rw [hg] at i3 i4
      simp only [List.map_cons, List.sum_cons, List.length_cons]
      refine ⟨?_, ?_, ?_, ?_⟩
      · rw [i1, u1]; ring
      · rw [i2, u2]; push_cast; ring
      · rw [i3, g1]; ring
      · rw [i4, g2]; push_cast; ring

/-- C3: each processed file contributes to exactly one user key and one group
key, so the user-stat sizes, the group-stat sizes and the root directory
aggregate all sum to the total folded bytes, and likewise for file counts. -/
theorem scan_partition (r : Resolver) (files : List RawFile) :
    userSizeSum ((runScan r files).userStats) = (files.map RawFile.size).sum ∧
    groupSizeSum ((runScan r files).groupStats) = (files.map RawFile.size).sum ∧
    (rootStat ((runScan r files).dirStats)).size = (files.map RawFile.size).sum ∧
    userFilesSum ((runScan r files).userStats) = (files.length : Int) ∧
    groupFilesSum ((runScan r files).groupStats) = (files.length : Int) ∧
    (rootStat ((runScan r files).dirStats)).files = (files.length : Int) := by
  obtain ⟨h1, h2, h3, h4⟩ := foldl_user_group_sums r files initialScanState
  have hroot := foldl_root r files initialScanState
  rw [runScan]
  have hz1 : userSizeSum initialScanState.userStats = 0 := rfl
  have hz2 : userFilesSum initialScanState.userStats = 0 := rfl
  have hz3 : groupSizeSum initialScanState.groupStats = 0 := rfl
  have hz4 : groupFilesSum initialScanState.groupStats = 0 := rfl
  have hz5 : rootStat initialScanState.dirStats = { size := 0, files := 0 } := rfl
  rw [h1, h2, h3, h4, hroot, hz1, hz2, hz3, hz4, hz5]
  norm_num

def witnessResolver : Resolver := { lookupUserId := fun _ => none, lookupGroupId := fun _ => none }

def witnessFiles : List RawFile :=
  [{ rel := ["sub"], uid := 1000, gid := 1000, size := 500 },
   { rel := [], uid := 1000, gid := 1000, size := 300 },
   { rel := [], uid := 1000, gid := 1000, size := 700 }]

/-- Witness for `scan_monotone_rollup` at a concrete three-file scan. -/
theorem scan_monotone_rollup_witness :
    (∀ d st, (runScan witnessResolver witnessFiles).dirStats d = some st → d ≠ [] →
      ∃ pst, (runScan witnessResolver witnessFiles).dirStats d.dropLast = some pst ∧
        st.size ≤ pst.size ∧ st.files ≤ pst.files) ∧
    rootStat ((runScan witnessResolver witnessFiles).dirStats)
      = { size := (witnessFiles.map RawFile.size).sum,
          files := (witnessFiles.length : Int) } ∧
    (witnessFiles ≠ [] → ∃ st, (runScan witnessResolver witnessFiles).dirStats [] = some st ∧
      st.size = (witnessFiles.map RawFile.size).sum ∧ st.files = (witnessFiles.length : Int)) :=
  scan_monotone_rollup witnessResolver witnessFiles (by decide)

/-! ### The snapshot codec: document construction (jsonio.go lines 93-233)

`StreamSummary` collects the three maps into entry records (resolving
owner/group data through external collaborators), sorts them canonically,
and streams the JSON document.  Every external effect of the collection
loops (`os.Lstat` on each directory, the `os/user` lookups) is a parameter
of the model (`CodecEnv`). -/

/-- What the dirs loop learns from a successful `os.Lstat` plus name
lookups (jsonio.go lines 169-185): numeric ids, and the resolved names with
`""` left in place when a lookup fails. -/
structure DirOwner where
  uid : Nat
  gid : Nat
  user : String
  group : String

/-- An `os/user.User` as consumed by the codec: `Username` and the decimal
`Uid` string. -/
structure UserEnt where
  name : String
  id : String

/-- An `os/user.Group`: `Name` and the decimal `Gid` string. -/
structure GroupEnt where
  name : String
  id : String

/-- The external lookups the codec performs; `none` models a failed call. -/
structure CodecEnv where
  dirOwner : String → Option DirOwner
  lookupUser : String → Option UserEnt
  lookupUserId : String → Option UserEnt
  lookupGroup : String → Option GroupEnt
  lookupGroupId : String → Option GroupEnt

/-- Model of `strconv.ParseUint(s, 10, 32)`: decimal digits only, value
below `2^32`. -/
def parseUint32 (s : String) : Option Nat :=
  if s.data ≠ [] ∧ (∀ c ∈ s.data, isDigitChar c = true) ∧ digitsVal s.data < 2 ^ 32 then
    some (digitsVal s.data)
  else none

/-- The `JsonDir` schema struct (jsonio.go lines 32-41). -/
structure JsonDir where
  path : String
  rel : String
  size : Int
  files : Int
  uid : Nat
  user : String
  gid : Nat
  group : String
deriving DecidableEq

/-- The `JsonUser` schema struct (jsonio.go lines 43-48). -/
structure JsonUser where
  name : String
  size : Int
  files : Int
  uid : Nat
deriving DecidableEq

/-- The `JsonGroup` schema struct (jsonio.go lines 50-55). -/
structure JsonGroup where
  name : String
  size : Int
  files : Int
  gid : Nat
deriving DecidableEq

/-- `filepath.Join(rootAbs, rel)` on the clean relative keys the scan
produces, with the root key `"."` mapping to the root itself (jsonio.go
lines 165-168). -/
def joinPath (rootAbs rel : String) : String :=
  if rel = "." then rootAbs else rootAbs ++ "/" ++ rel

/-- One iteration of the dirs collection loop (jsonio.go lines 164-187). -/
def collectDir (env : CodecEnv) (rootAbs : String) (e : String × DirStat) : JsonDir :=
  let abs := joinPath rootAbs e.1
  match env.dirOwner abs with
  | none =>
      { path := abs, rel := e.1, size := e.2.size, files := e.2.files,
        uid := 0, user := "", gid := 0, group := "" }
  | some o =>
      { path := abs, rel := e.1, size := e.2.size, files := e.2.files,
        uid := o.uid, user := o.user, gid := o.gid, group := o.group }

/-- One iteration of the users collection loop (jsonio.go lines 190-207):
resolve by name, then by id, else fall back to parsing the key as a numeric
id; the entry name is the resolved name (the key itself when unresolvable). -/
def collectUser (env : CodecEnv) (e : String × UserStat) : JsonUser :=
  match env.lookupUser e.1 with
  | some ent =>
      { name := ent.name, size := e.2.size, files := e.2.files,
        uid := (parseUint32 ent.id).getD 0 }
  | none =>
      match env.lookupUserId e.1 with
      | some ent =>
          { name := ent.name, size := e.2.size, files := e.2.files,
            uid := (parseUint32 ent.id).getD 0 }
      | none =>
          { name := e.1, size := e.2.size, files := e.2.files,
            uid := (parseUint32 e.1).getD 0 }

/-- One iteration of the groups collection loop (jsonio.go lines 210-227). -/
def collectGroup (env : CodecEnv) (e : String × GroupStat) : JsonGroup :=
  match env.lookupGroup e.1 with
  | some ent =>
      { name := ent.name, size := e.2.size, files := e.2.files,
        gid := (parseUint32 ent.id).getD 0 }
  | none =>
      match env.lookupGroupId e.1 with
      | some ent =>
          { name := ent.name, size := e.2.size, files := e.2.files,
            gid := (parseUint32 ent.id).getD 0 }
      | none =>
          { name := e.1, size := e.2.size, files := e.2.files,
            gid := (parseUint32 e.1).getD 0 }

/-- The canonical orderings (jsonio.go lines 231-233).  `sort.Slice` with
`less = path <` produces some sequence that is sorted by `path ≤`;
`mergeSort` is such a sequence, and on key-distinct inputs (the case the
uniqueness theorems assume) every such sequence is the same one. -/
def sortDirs (l : List JsonDir) : List JsonDir :=
  l.mergeSort (fun a b => decide (a.path ≤ b.path))

def sortUsers (l : List JsonUser) : List JsonUser :=
  l.mergeSort (fun a b => decide (a.name ≤ b.name))

def sortGroups (l : List JsonGroup) : List JsonGroup :=
  l.mergeSort (fun a b => decide (a.name ≤ b.name))

-- canonical-sort lemma
theorem mergeSort_key_sorted {α : Type} (key : α → String) (l : List α) :
    List.Sorted (fun a b => key a ≤ key b) (l.mergeSort (fun a b => decide (key a ≤ key b))) := by
  have h := @List.sorted_mergeSort α (fun a b => decide (key a ≤ key b))
    (fun a b c hab hbc => by
      simp only [decide_eq_true_eq] at hab hbc ⊢
      exact le_trans hab hbc)
    (fun a b => by
      rcases le_total (key a) (key b) with h | h
      · simp [h]
      · simp [h])
    l
  exact h.imp (fun hab => of_decide_eq_true hab)

theorem mergeSort_key_canonical {α : Type} (key : α → String) (l1 l2 : List α)
    (hperm : l1.Perm l2) (hnd : (l1.map key).Nodup) :
    l1.mergeSort (fun a b => decide (key a ≤ key b))
      = l2.mergeSort (fun a b => decide (key a ≤ key b)) := by
  have hs1 := mergeSort_key_sorted key l1
  have hs2 := mergeSort_key_sorted key l2
  have hp1 : (l1.mergeSort (fun a b => decide (key a ≤ key b))).Perm l1 :=
    List.mergeSort_perm l1 _
  have hp2 : (l2.mergeSort (fun a b => decide (key a ≤ key b))).Perm l2 :=
    List.mergeSort_perm l2 _
  have hnd1 : ((l1.mergeSort (fun a b => decide (key a ≤ key b))).map key).Nodup :=
    (hp1.map key).nodup_iff.mpr hnd
  have hnd2 : ((l2.mergeSort (fun a b => decide (key a ≤ key b))).map key).Nodup := by
    refine (hp2.map key).nodup_iff.mpr ?_
    exact ((hperm.map key).nodup_iff).mp hnd
  have hne1 : List.Pairwise (fun a b => key a ≠ key b)
      (l1.mergeSort (fun a b => decide (key a ≤ key b))) := List.pairwise_map.mp hnd1
  have hne2 : List.Pairwise (fun a b => key a ≠ key b)
      (l2.mergeSort (fun a b => decide (key a ≤ key b))) := List.pairwise_map.mp hnd2
  have hlt1 : List.Sorted (fun a b => key a < key b)
      (l1.mergeSort (fun a b => decide (key a ≤ key b))) :=
    (hs1.and hne1).imp (fun hab => lt_of_le_of_ne hab.1 hab.2)
  have hlt2 : List.Sorted (fun a b => key a < key b)
      (l2.mergeSort (fun a b => decide (key a ≤ key b))) :=
    (hs2.and hne2).imp (fun hab => lt_of_le_of_ne hab.1 hab.2)
  have hanti : IsAntisymm α (fun a b => key a < key b) :=
    ⟨fun a b hab hba => absurd hba (not_lt.mpr (le_of_lt hab))⟩
  exact @List.eq_of_perm_of_sorted α (fun a b => key a < key b) hanti _ _
    (hp1.trans (hperm.trans hp2.symm)) hlt1 hlt2

/-! ### The wire bytes

The document bytes are assembled manually (jsonio.go lines 236-325):
`json.MarshalIndent` for the root string, the stats object and each array
entry, glued with hand-written braces, commas and the `indentString`
re-indentation helper.  `Json` is the value tree `encoding/json` renders;
`printJson` is `MarshalIndent(v, "", "  ")`.  Number atoms carry their
rendered token (`intRepr`/`natRepr` for the modelled integers; the two
`float64` diagnostic fields of the stats carry whatever numeral Go's float
formatter produced, abstracted as a token string). -/

inductive Json where
  | num (tok : String)
  | str (s : String)
  | arr (elems : List Json)
  | obj (mems : List (String × Json))

def spacesN (n : Nat) : List Char := List.replicate n ' '

mutual
def printJson (d : Nat) : Json → List Char
  | .num tok => tok.data
  | .str s => '"' :: s.data ++ ['"']
  | .arr [] => ['[', ']']
  | .arr (x :: xs) =>
      '[' :: '\n' :: (printElems (d + 2) (x :: xs) ++ '\n' :: (spacesN d ++ [']']))
  | .obj [] => ['{', '}']
  | .obj (m :: ms) =>
      '{' :: '\n' :: (printMems (d + 2) (m :: ms) ++ '\n' :: (spacesN d ++ ['}']))
def printElems (d : Nat) : List Json → List Char
  | [] => []
  | [x] => spacesN d ++ printJson d x
  | x :: y :: xs => spacesN d ++ printJson d x ++ ',' :: '\n' :: printElems d (y :: xs)
def printMems (d : Nat) : List (String × Json) → List Char
  | [] => []
  | [(k, v)] => spacesN d ++ '"' :: k.data ++ '"' :: ':' :: ' ' :: printJson d v
  | (k, v) :: m :: ms =>
      spacesN d ++ '"' :: k.data ++ '"' :: ':' :: ' ' :: printJson d v
        ++ ',' :: '\n' :: printMems d (m :: ms)
end

/-- The `JsonStats` schema struct (jsonio.go lines 57-81).  All fields are
diagnostic run metadata sampled externally; the two `float64` fields are
modelled as their rendered numeral tokens. -/
structure StatsModel where
  startedAt : String
  endedAt : String
  runtimeSeconds : String
  runtime : String
  dirsScanned : Int
  filesScanned : Int
  memAlloc : Nat
  totalAlloc : Nat
  heapAlloc : Nat
  heapSys : Nat
  numGC : Nat
  pauseTotalNs : Nat
  lastGC : String
  gcCPUFraction : String
  heapInuse : Nat
  heapIdle : Nat
  heapReleased : Nat
  nextGC : Nat
  lastPauseNs : Nat
  maxPauseNs : Nat
  peakAllocBytes : Nat
  peakHeapAllocBytes : Nat
  version : String
deriving DecidableEq

/-- The value tree `encoding/json` builds for `JsonStats`: fields in struct
order, `last_gc` omitted when empty (its `omitempty` tag). -/
def statsJson (st : StatsModel) : Json :=
  .obj ([("started_at", .str st.startedAt), ("ended_at", .str st.endedAt),
         ("runtime_seconds", .num st.runtimeSeconds), ("runtime", .str st.runtime),
         ("dirs_scanned", .num (intRepr st.dirsScanned)),
         ("files_scanned", .num (intRepr st.filesScanned)),
         ("mem_alloc_bytes", .num (natRepr st.memAlloc)),
         ("total_alloc_bytes", .num (natRepr st.totalAlloc)),
         ("heap_alloc_bytes", .num (natRepr st.heapAlloc)),
         ("heap_sys_bytes", .num (natRepr st.heapSys)),
         ("num_gc", .num (natRepr st.numGC)),
         ("pause_total_ns", .num (natRepr st.pauseTotalNs))] ++
        (if st.lastGC = "" then [] else [("last_gc", Json.str st.lastGC)]) ++
        [("gc_cpu_fraction", .num st.gcCPUFraction),
         ("heap_inuse_bytes", .num (natRepr st.heapInuse)),
         ("heap_idle_bytes", .num (natRepr st.heapIdle)),
         ("heap_released_bytes", .num (natRepr st.heapReleased)),
         ("next_gc_bytes", .num (natRepr st.nextGC)),
         ("last_pause_ns", .num (natRepr st.lastPauseNs)),
         ("max_pause_ns", .num (natRepr st.maxPauseNs)),
         ("peak_alloc_bytes", .num (natRepr st.peakAllocBytes)),
         ("peak_heap_alloc_bytes", .num (natRepr st.peakHeapAllocBytes)),
         ("version", .str st.version)])

/-- The value tree for a `JsonDir`: fields in struct order, `uid`, `user`,
`gid`, `group` omitted at their zero values (`omitempty`). -/
def dirJson (e : JsonDir) : Json :=
  .obj ([("path", Json.str e.path), ("rel", Json.str e.rel),
         ("size", Json.num (intRepr e.size)), ("files", Json.num (intRepr e.files))] ++
        (if e.uid = 0 then [] else [("uid", Json.num (natRepr e.uid))]) ++
        (if e.user = "" then [] else [("user", Json.str e.user)]) ++
        (if e.gid = 0 then [] else [("gid", Json.num (natRepr e.gid))]) ++
        (if e.group = "" then [] else [("group", Json.str e.group)]))

def userJson (e : JsonUser) : Json :=
  .obj ([("name", Json.str e.name),
         ("size", Json.num (intRepr e.size)), ("files", Json.num (intRepr e.files))] ++
        (if e.uid = 0 then [] else [("uid", Json.num (natRepr e.uid))]))

def groupJson (e : JsonGroup) : Json :=
  .obj ([("name", Json.str e.name),
         ("size", Json.num (intRepr e.size)), ("files", Json.num (intRepr e.files))] ++
        (if e.gid = 0 then [] else [("gid", Json.num (natRepr e.gid))]))

/-- JSON / `strings.TrimSpace` whitespace (the subset relevant to the
ASCII output). -/
def isWsChar (c : Char) : Bool := c = ' ' || c = '\n' || c = '\t' || c = '\r'

/-- `strings.Split(s, "\n")` at the character level. -/
def splitNL : List Char → List (List Char)
  | [] => [[]]
  | c :: rest =>
      if c = '\n' then [] :: splitNL rest
      else
        match splitNL rest with
        | [] => [[c]]
        | l :: ls => (c :: l) :: ls

def joinNL : List (List Char) → List Char
  | [] => []
  | [l] => l
  | l :: l2 :: ls => l ++ '\n' :: joinNL (l2 :: ls)

/-- The per-line padding of `indentString`: a blank line (all whitespace,
which `TrimSpace` empties) becomes empty, any other line is prefixed with
`n` spaces. -/
def padFn (n : Nat) (l : List Char) : List Char :=
  if l.all isWsChar then [] else spacesN n ++ l

/-- `indentString` (jsonio.go lines 329-341): prefix every non-blank line
with `n` spaces, blank lines become empty. -/
def indentLines (n : Nat) (cs : List Char) : List Char :=
  joinNL ((splitNL cs).map (padFn n))

/-- The entry loop of each array (jsonio.go lines 260-274): each entry is
`MarshalIndent`-rendered, re-indented by four spaces, and followed by
`,\n` (non-last) or `\n` (last). -/
def entriesBlock : List Json → List Char
  | [] => []
  | [j] => indentLines 4 (printJson 0 j) ++ ['\n']
  | j :: j2 :: js => indentLines 4 (printJson 0 j) ++ ',' :: '\n' :: entriesBlock (j2 :: js)

/-- The document `StreamSummary` serializes: root, stats and the three
sorted entry sequences (the `JsonOut` struct, jsonio.go lines 83-89). -/
structure SummaryDoc where
  root : String
  stats : StatsModel
  dirs : List JsonDir
  users : List JsonUser
  grps : List JsonGroup
deriving DecidableEq

/-- The manual writer (jsonio.go lines 240-322), byte for byte, as a
function of the root string, the stats value tree and the three rendered
entry lists. -/
def streamRaw (root : String) (stats : Json) (dJ uJ gJ : List Json) : List Char :=
  "\x7b\n".data ++
  "  \"root\": ".data ++ printJson 0 (.str root) ++ ",\n".data ++
  "  \"stats\": ".data ++ printJson 0 stats ++ ",\n".data ++
  "  \"dirs\": [\n".data ++ entriesBlock dJ ++ "  ],\n".data ++
  "  \"users\": [\n".data ++ entriesBlock uJ ++ "  ],\n".data ++
  "  \"groups\": [\n".data ++ entriesBlock gJ ++ "  ]\n".data ++
  "\x7d\n".data

/-- The manual writer applied to a document. -/
def streamBytesOfDoc (doc : SummaryDoc) : List Char :=
  streamRaw doc.root (statsJson doc.stats) (doc.dirs.map dirJson)
    (doc.users.map userJson) (doc.grps.map groupJson)

/-- The document-construction half of `StreamSummary` (collect + sort). -/
def streamSummaryDoc (env : CodecEnv) (rootAbs : String) (stats : StatsModel)
    (dirStats : List (String × DirStat)) (userStats : List (String × UserStat))
    (groupStats : List (String × GroupStat)) : SummaryDoc :=
  { root := rootAbs, stats := stats,
    dirs := sortDirs (dirStats.map (collectDir env rootAbs)),
    users := sortUsers (userStats.map (collectUser env)),
    grps := sortGroups (groupStats.map (collectGroup env)) }

/-- `StreamSummary` (jsonio.go lines 93-326): the bytes written to the sink
for a given aggregate state and run metadata. -/
def StreamSummary (env : CodecEnv) (rootAbs : String) (stats : StatsModel)
    (dirStats : List (String × DirStat)) (userStats : List (String × UserStat))
    (groupStats : List (String × GroupStat)) : List Char :=
  streamBytesOfDoc (streamSummaryDoc env rootAbs stats dirStats userStats groupStats)

/-- C5: in every document produced by `StreamSummary`, the dirs array is
sorted ascending by path, and the users and groups arrays are sorted
ascending by name (lexicographic order; byte order and character order
agree on UTF-8). -/
theorem streamSummary_sorted (env : CodecEnv) (rootAbs : String) (stats : StatsModel)
    (dirStats : List (String × DirStat)) (userStats : List (String × UserStat))
    (groupStats : List (String × GroupStat)) :
    List.Sorted (fun a b => a.path ≤ b.path)
        (streamSummaryDoc env rootAbs stats dirStats userStats groupStats).dirs ∧
    List.Sorted (fun a b => a.name ≤ b.name)
        (streamSummaryDoc env rootAbs stats dirStats userStats groupStats).users ∧
    List.Sorted (fun a b => a.name ≤ b.name)
        (streamSummaryDoc env rootAbs stats dirStats userStats groupStats).grps :=
  ⟨mergeSort_key_sorted JsonDir.path _,
   mergeSort_key_sorted JsonUser.name _,
   mergeSort_key_sorted JsonGroup.name _⟩

theorem collectDir_path (env : CodecEnv) (rootAbs : String) (e : String × DirStat) :
    (collectDir env rootAbs e).path = joinPath rootAbs e.1 := by
  rw [collectDir]
  cases env.dirOwner (joinPath rootAbs e.1) <;> rfl

theorem collectDir_rel (env : CodecEnv) (rootAbs : String) (e : String × DirStat) :
    (collectDir env rootAbs e).rel = e.1 := by
  rw [collectDir]
  cases env.dirOwner (joinPath rootAbs e.1) <;> rfl

theorem joinPath_injective (rootAbs : String) : Function.Injective (joinPath rootAbs) := by
  intro a b h
  rw [joinPath, joinPath] at h
  by_cases ha : a = "."
  · by_cases hb : b = "."
    · rw [ha, hb]
    · rw [if_pos ha, if_neg hb] at h
      have hlen := congrArg String.length h
      rw [String.length_append, String.length_append] at hlen
      have : ("/" : String).length = 1 := rfl
      omega
  · by_cases hb : b = "."
    · rw [if_neg ha, if_pos hb] at h
      have hlen := congrArg String.length h
      rw [String.length_append, String.length_append] at hlen
      have : ("/" : String).length = 1 := rfl
      omega
    · rw [if_neg ha, if_neg hb] at h
      have hdata := congrArg String.data h
      simp only [String.data_append] at hdata
      have h2 := List.append_cancel_left hdata
      cases a
      cases b
      exact congrArg String.mk h2

/-- C6: encoding the same unchanged aggregate mappings twice produces
byte-identical output: the bytes do not depend on the (arbitrary) map
iteration orders, provided the directory keys are distinct (they are: they
key a map) and the resolved user/group display names are distinct (when two
keys resolve to one display name, Go's unstable `sort.Slice` may order the
tied entries differently between runs, so the guarantee genuinely needs
this). -/
theorem streamSummary_deterministic (env : CodecEnv) (rootAbs : String) (stats : StatsModel)
    (d1 d2 : List (String × DirStat)) (u1 u2 : List (String × UserStat))
    (g1 g2 : List (String × GroupStat))
    (hdp : d1.Perm d2) (hup : u1.Perm u2) (hgp : g1.Perm g2)
    (hdk : (d1.map Prod.fst).Nodup)
    (huk : ((u1.map (collectUser env)).map JsonUser.name).Nodup)
    (hgk : ((g1.map (collectGroup env)).map JsonGroup.name).Nodup) :
    StreamSummary env rootAbs stats d1 u1 g1 = StreamSummary env rootAbs stats d2 u2 g2 := by
  have hdnd : ((d1.map (collectDir env rootAbs)).map JsonDir.path).Nodup := by
    rw [List.map_map]
    have heq : (JsonDir.path ∘ collectDir env rootAbs)
        = (fun e : String × DirStat => joinPath rootAbs e.1) := by
      funext e
      exact collectDir_path env rootAbs e
    rw [heq]
    have : (fun e : String × DirStat => joinPath rootAbs e.1)
        = joinPath rootAbs ∘ Prod.fst := rfl
    rw [this, ← List.map_map]
    exact hdk.map (joinPath_injective rootAbs)
  have hd : sortDirs (d1.map (collectDir env rootAbs))
      = sortDirs (d2.map (collectDir env rootAbs)) :=
    mergeSort_key_canonical JsonDir.path _ _ (hdp.map _) hdnd
  have hu : sortUsers (u1.map (collectUser env)) = sortUsers (u2.map (collectUser env)) :=
    mergeSort_key_canonical JsonUser.name _ _ (hup.map _) huk
  have hg : sortGroups (g1.map (collectGroup env)) = sortGroups (g2.map (collectGroup env)) :=
    mergeSort_key_canonical JsonGroup.name _ _ (hgp.map _) hgk
  rw [StreamSummary, StreamSummary, streamSummaryDoc, streamSummaryDoc, hd, hu, hg]

/-- A codec environment in which every external lookup fails. -/
def emptyEnv : CodecEnv :=
  { dirOwner := fun _ => none, lookupUser := fun _ => none, lookupUserId := fun _ => none,
    lookupGroup := fun _ => none, lookupGroupId := fun _ => none }

/-- A concrete run-metadata sample for witnesses. -/
def plainStats : StatsModel :=
  { startedAt := "2024-01-01T00:00:00Z", endedAt := "2024-01-01T00:00:01Z",
    runtimeSeconds := "1", runtime := "1s", dirsScanned := 1, filesScanned := 2,
    memAlloc := 0, totalAlloc := 0, heapAlloc := 0, heapSys := 0, numGC := 0,
    pauseTotalNs := 0, lastGC := "", gcCPUFraction := "0", heapInuse := 0,
    heapIdle := 0, heapReleased := 0, nextGC := 0, lastPauseNs := 0, maxPauseNs := 0,
    peakAllocBytes := 0, peakHeapAllocBytes := 0, version := "dev" }

/-- Witness for `streamSummary_deterministic` at two iteration orders of a
two-directory store. -/
theorem streamSummary_deterministic_witness :
    StreamSummary emptyEnv "/r" plainStats
        [("a", { size := 1, files := 1 }), (".", { size := 2, files := 2 })]
        [("u", { size := 2, files := 2 })] [("g", { size := 2, files := 2 })]
      = StreamSummary emptyEnv "/r" plainStats
        [(".", { size := 2, files := 2 }), ("a", { size := 1, files := 1 })]
        [("u", { size := 2, files := 2 })] [("g", { size := 2, files := 2 })] :=
  streamSummary_deterministic emptyEnv "/r" plainStats _ _ _ _ _ _
    (by decide) (by decide) (by decide) (by decide) (by decide) (by decide)

/-- C9 counterexample: the encoder ranges over `dirStats` as given; from
the empty aggregate (a scan that folded no files) the document's dirs array
is empty — no entry with rel `"."` exists.  The root-ensuring code in
main.go (lines 650-655) runs only on the human-rendering path, after the
JSON path has already returned. -/
theorem streamSummary_root_counterexample :
    (streamSummaryDoc emptyEnv "/r" plainStats [] [] []).dirs = [] ∧
    ¬ ∃ e ∈ (streamSummaryDoc emptyEnv "/r" plainStats [] [] []).dirs, e.rel = "." := by
  have hnil : (streamSummaryDoc emptyEnv "/r" plainStats [] [] []).dirs = [] := by
    simp [streamSummaryDoc, sortDirs]
  refine ⟨hnil, ?_⟩
  rintro ⟨e, he, _⟩
  rw [hnil] at he
  exact absurd he (List.not_mem_nil e)

/-- C9 (amended): every document produced from a directory map that
contains the root key `"."` — which the scan establishes as soon as any
file is folded — carries a dirs entry with rel `"."`; for the empty
aggregate the dirs array is empty. -/
theorem streamSummary_root_presence (env : CodecEnv) (rootAbs : String) (stats : StatsModel)
    (dirStats : List (String × DirStat)) (userStats : List (String × UserStat))
    (groupStats : List (String × GroupStat))
    (h : "." ∈ dirStats.map Prod.fst) :
    ∃ e ∈ (streamSummaryDoc env rootAbs stats dirStats userStats groupStats).dirs,
      e.rel = "." := by
  obtain ⟨p, hp, hfst⟩ := List.mem_map.mp h
  have hmem : collectDir env rootAbs p ∈ dirStats.map (collectDir env rootAbs) :=
    List.mem_map.mpr ⟨p, hp, rfl⟩
  refine ⟨collectDir env rootAbs p, ?_, ?_⟩
  · show collectDir env rootAbs p ∈ sortDirs (dirStats.map (collectDir env rootAbs))
    exact ((List.mergeSort_perm (dirStats.map (collectDir env rootAbs)) _).mem_iff).mpr hmem
  · rw [collectDir_rel]
    exact hfst

/-- Witness for `streamSummary_root_presence` at a one-directory store. -/
theorem streamSummary_root_presence_witness :
    ∃ e ∈ (streamSummaryDoc emptyEnv "/r" plainStats [(".", { size := 3, files := 1 })]
        [] []).dirs, e.rel = "." :=
  streamSummary_root_presence emptyEnv "/r" plainStats
    [(".", { size := 3, files := 1 })] [] [] (by decide)

def isNumChar (c : Char) : Bool :=
  isDigitChar c || c == '-' || c == '+' || c == '.' || c == 'e' || c == 'E'

def skipWs (cs : List Char) : List Char := cs.dropWhile isWsChar

def notQuote (c : Char) : Bool := !(c == '"')

def parseStrBody (cs : List Char) : Option (String × List Char) :=
  match cs.dropWhile notQuote with
  | '"' :: r => some (String.mk (cs.takeWhile notQuote), r)
  | _ => none

mutual
def parseVal : Nat → List Char → Option (Json × List Char)
  | 0, _ => none
  | fuel + 1, cs =>
      match skipWs cs with
      | '"' :: r =>
          match parseStrBody r with
          | some (s, r2) => some (.str s, r2)
          | none => none
      | '{' :: r =>
          match skipWs r with
          | [] => none
          | c :: r2 =>
              if c = '}' then some (.obj [], r2)
              else parseMems fuel (c :: r2) []
      | '[' :: r =>
          match skipWs r with
          | [] => none
          | c :: r2 =>
              if c = ']' then some (.arr [], r2)
              else parseElems fuel (c :: r2) []
      | c :: r =>
          if isNumChar c then
            some (.num (String.mk ((c :: r).takeWhile isNumChar)), (c :: r).dropWhile isNumChar)
          else none
      | [] => none
def parseMems : Nat → List Char → List (String × Json) → Option (Json × List Char)
  | 0, _, _ => none
  | fuel + 1, cs, acc =>
      match skipWs cs with
      | '"' :: r =>
          match parseStrBody r with
          | some (k, r1) =>
              match skipWs r1 with
              | ':' :: r2 =>
                  match parseVal fuel r2 with
                  | some (v, r3) =>
                      match skipWs r3 with
                      | ',' :: r4 => parseMems fuel r4 (acc ++ [(k, v)])
                      | '}' :: r4 => some (.obj (acc ++ [(k, v)]), r4)
                      | _ => none
                  | none => none
              | _ => none
          | none => none
      | _ => none
def parseElems : Nat → List Char → List Json → Option (Json × List Char)
  | 0, _, _ => none
  | fuel + 1, cs, acc =>
      match parseVal fuel cs with
      | some (v, r) =>
          match skipWs r with
          | ',' :: r2 => parseElems fuel r2 (acc ++ [v])
          | ']' :: r2 => some (.arr (acc ++ [v]), r2)
          | _ => none
      | none => none
end

def StrPlain (s : String) : Prop :=
  ∀ c ∈ s.data, 0x20 ≤ c.toNat ∧ c.toNat < 0x80 ∧ c ≠ '"' ∧ c ≠ '\\' ∧
    c ≠ '<' ∧ c ≠ '>' ∧ c ≠ '&'

def NumTok (t : String) : Prop := t.data ≠ [] ∧ ∀ c ∈ t.data, isNumChar c = true

def WsRun (w : List Char) : Prop := ∀ c ∈ w, isWsChar c = true

def numSafe : List Char → Prop
  | [] => True
  | c :: _ => isNumChar c = false

mutual
inductive Emits : Json → List Char → Prop where
  | str {s : String} : StrPlain s → Emits (.str s) ('"' :: s.data ++ ['"'])
  | num {t : String} : NumTok t → Emits (.num t) t.data
  | arrNil {w : List Char} : WsRun w → Emits (.arr []) ('[' :: w ++ [']'])
  | arrCons {xs : List Json} {cs : List Char} :
      EmitsElems xs cs → Emits (.arr xs) ('[' :: cs)
  | objNil {w : List Char} : WsRun w → Emits (.obj []) ('{' :: w ++ ['}'])
  | objCons {ms : List (String × Json)} {cs : List Char} :
      EmitsMems ms cs → Emits (.obj ms) ('{' :: cs)
inductive EmitsElems : List Json → List Char → Prop where
  | last {x : Json} {sv w1 w2 : List Char} : WsRun w1 → Emits x sv → WsRun w2 →
      EmitsElems [x] (w1 ++ sv ++ w2 ++ [']'])
  | cons {x : Json} {xs : List Json} {sv rest w1 w2 : List Char} :
      WsRun w1 → Emits x sv → WsRun w2 → EmitsElems xs rest →
      EmitsElems (x :: xs) (w1 ++ sv ++ w2 ++ ',' :: rest)
inductive EmitsMems : List (String × Json) → List Char → Prop where
  | last {k : String} {v : Json} {sv w1 w2 w3 w4 : List Char} :
      WsRun w1 → StrPlain k → WsRun w2 → WsRun w3 → Emits v sv → WsRun w4 →
      EmitsMems [(k, v)]
        (w1 ++ '"' :: k.data ++ '"' :: w2 ++ ':' :: w3 ++ sv ++ w4 ++ ['}'])
  | cons {k : String} {v : Json} {ms : List (String × Json)} {sv rest w1 w2 w3 w4 : List Char} :
      WsRun w1 → StrPlain k → WsRun w2 → WsRun w3 → Emits v sv → WsRun w4 →
      EmitsMems ms rest →
      EmitsMems ((k, v) :: ms)
        (w1 ++ '"' :: k.data ++ '"' :: w2 ++ ':' :: w3 ++ sv ++ w4 ++ ',' :: rest)
end

mutual
def jweight : Json → Nat
  | .num _ => 1
  | .str _ => 1
  | .arr xs => 1 + jweightElems xs
  | .obj ms => 1 + jweightMems ms
def jweightElems : List Json → Nat
  | [] => 0
  | x :: xs => 1 + jweight x + jweightElems xs
def jweightMems : List (String × Json) → Nat
  | [] => 0
  | m :: ms => 1 + jweight m.2 + jweightMems ms
end

theorem skipWs_ws_append {w : List Char} (hw : WsRun w) (t : List Char) :
    skipWs (w ++ t) = skipWs t := by
  induction w with
  | nil => rfl
  | cons c cs ih =>
      have hc : isWsChar c = true := hw c (List.mem_cons_self c cs)
      rw [List.cons_append, skipWs, List.dropWhile_cons_of_pos hc]
      exact ih (fun x hx => hw x (List.mem_cons_of_mem c hx))

theorem skipWs_not_ws {c : Char} (hc : isWsChar c = false) (t : List Char) :
    skipWs (c :: t) = c :: t := by
  rw [skipWs, List.dropWhile_cons_of_neg]
  rw [hc]
  exact Bool.false_ne_true

theorem takeWhile_all_append {p : Char → Bool} {l1 : List Char} (h1 : ∀ c ∈ l1, p c = true)
    {c2 : Char} (hc2 : p c2 = false) (t : List Char) :
    (l1 ++ c2 :: t).takeWhile p = l1 ∧ (l1 ++ c2 :: t).dropWhile p = c2 :: t := by
  induction l1 with
  | nil =>
      constructor
      · rw [List.nil_append, List.takeWhile_cons_of_neg]
        rw [hc2]; exact Bool.false_ne_true
      · rw [List.nil_append, List.dropWhile_cons_of_neg]
        rw [hc2]; exact Bool.false_ne_true
  | cons c cs ih =>
      have hc : p c = true := h1 c (List.mem_cons_self c cs)
      obtain ⟨ht, hd⟩ := ih (fun x hx => h1 x (List.mem_cons_of_mem c hx))
      constructor
      · rw [List.cons_append, List.takeWhile_cons_of_pos hc, ht]
      · rw [List.cons_append, List.dropWhile_cons_of_pos hc, hd]

theorem parseStrBody_plain (s : String) (hs : StrPlain s) (r : List Char) :
    parseStrBody (s.data ++ '"' :: r) = some (s, r) := by
  have hall : ∀ c ∈ s.data, notQuote c = true := by
    intro c hc
    have := (hs c hc).2.2.1
    simp [notQuote, this]
  have hq : notQuote '"' = false := by decide
  obtain ⟨ht, hd⟩ := takeWhile_all_append hall hq r
  rw [parseStrBody, hd, ht]
  cases s
  rfl

theorem numChar_not_ws {c : Char} (h : isNumChar c = true) : isWsChar c = false := by
  rcases Bool.eq_false_or_eq_true (isWsChar c) with ht | hf
  · exfalso
    simp only [isWsChar, Bool.or_eq_true, decide_eq_true_eq] at ht
    rcases ht with ((rfl | rfl) | rfl) | rfl <;> exact absurd h (by decide)
  · exact hf

theorem numChar_ne {c : Char} (h : isNumChar c = true) :
    c ≠ '"' ∧ c ≠ '{' ∧ c ≠ '[' ∧ c ≠ ']' ∧ c ≠ '}' ∧ c ≠ ',' ∧ c ≠ ':' := by
  refine ⟨fun he => ?_, fun he => ?_, fun he => ?_, fun he => ?_, fun he => ?_,
    fun he => ?_, fun he => ?_⟩ <;>
    (rw [he] at h; exact absurd h (by decide))

theorem wsChar_not_num {c : Char} (h : isWsChar c = true) : isNumChar c = false := by
  simp only [isWsChar, Bool.or_eq_true, decide_eq_true_eq] at h
  rcases h with ((rfl | rfl) | rfl) | rfl <;> decide

theorem numSafe_ws {w : List Char} (hw : WsRun w) (t : List Char) (ht : numSafe t) :
    numSafe (w ++ t) := by
  cases w with
  | nil => exact ht
  | cons c cs =>
      show isNumChar c = false
      exact wsChar_not_num (hw c (List.mem_cons_self c cs))

theorem numTok_parse (t : String) (ht : NumTok t) (rest : List Char) (hr : numSafe rest) :
    (t.data ++ rest).takeWhile isNumChar = t.data ∧
    (t.data ++ rest).dropWhile isNumChar = rest := by
  obtain ⟨hne, hall⟩ := ht
  cases hrest : rest with
  | nil =>
      subst hrest
      constructor
      · rw [List.append_nil]
        exact List.takeWhile_eq_self_iff.mpr hall
      · rw [List.append_nil]
        exact List.dropWhile_eq_nil_iff.mpr (fun _ _ => hall _ (by assumption))
  | cons c2 t2 =>
      subst hrest
      have hc2 : isNumChar c2 = false := hr
      exact takeWhile_all_append hall hc2 t2

theorem skipWs_skipWs (cs : List Char) : skipWs (skipWs cs) = skipWs cs := by
  induction cs with
  | nil => rfl
  | cons c t ih =>
      rcases Bool.eq_false_or_eq_true (isWsChar c) with hc | hc
      · have hstep : skipWs (c :: t) = skipWs t := by
          rw [skipWs, List.dropWhile_cons_of_pos hc]
          rfl
        rw [hstep, ih]
      · rw [skipWs_not_ws hc, skipWs_not_ws hc]

theorem parseVal_step (fuel : Nat) (cs : List Char) :
    parseVal (fuel + 1) cs =
      (match skipWs cs with
      | '"' :: r =>
          match parseStrBody r with
          | some (s, r2) => some (.str s, r2)
          | none => none
      | '{' :: r =>
          match skipWs r with
          | [] => none
          | c :: r2 =>
              if c = '}' then some (.obj [], r2)
              else parseMems fuel (c :: r2) []
      | '[' :: r =>
          match skipWs r with
          | [] => none
          | c :: r2 =>
              if c = ']' then some (.arr [], r2)
              else parseElems fuel (c :: r2) []
      | c :: r =>
          if isNumChar c then
            some (.num (String.mk ((c :: r).takeWhile isNumChar)), (c :: r).dropWhile isNumChar)
          else none
      | [] => none) := rfl

theorem parseMems_step (fuel : Nat) (cs : List Char) (acc : List (String × Json)) :
    parseMems (fuel + 1) cs acc =
      (match skipWs cs with
      | '"' :: r =>
          match parseStrBody r with
          | some (k, r1) =>
              match skipWs r1 with
              | ':' :: r2 =>
                  match parseVal fuel r2 with
                  | some (v, r3) =>
                      match skipWs r3 with
                      | ',' :: r4 => parseMems fuel r4 (acc ++ [(k, v)])
                      | '}' :: r4 => some (.obj (acc ++ [(k, v)]), r4)
                      | _ => none
                  | none => none
              | _ => none
          | none => none
      | _ => none) := rfl

theorem parseElems_step (fuel : Nat) (cs : List Char) (acc : List Json) :
    parseElems (fuel + 1) cs acc =
      (match parseVal fuel cs with
      | some (v, r) =>
          match skipWs r with
          | ',' :: r2 => parseElems fuel r2 (acc ++ [v])
          | ']' :: r2 => some (.arr (acc ++ [v]), r2)
          | _ => none
      | none => none) := rfl

theorem parseVal_skipWs (fuel : Nat) (cs : List Char) :
    parseVal fuel (skipWs cs) = parseVal fuel cs := by
  cases fuel with
  | zero => rfl
  | succ f => rw [parseVal_step, parseVal_step, skipWs_skipWs]

theorem parseMems_skipWs (fuel : Nat) (cs : List Char) (acc : List (String × Json)) :
    parseMems fuel (skipWs cs) acc = parseMems fuel cs acc := by
  cases fuel with
  | zero => rfl
  | succ f => rw [parseMems_step, parseMems_step, skipWs_skipWs]

theorem parseElems_skipWs (fuel : Nat) (cs : List Char) (acc : List Json) :
    parseElems fuel (skipWs cs) acc = parseElems fuel cs acc := by
  cases fuel with
  | zero => rfl
  | succ f => rw [parseElems_step, parseElems_step, parseVal_skipWs]

theorem emits_head {j : Json} {sv : List Char} (he : Emits j sv) :
    ∃ c t, sv = c :: t ∧ isWsChar c = false ∧ c ≠ ']' ∧ c ≠ '}' := by
  cases he with
  | str hs => exact ⟨'"', _, rfl, by decide, by decide, by decide⟩
  | num hnt =>
      obtain ⟨hne, hall⟩ := hnt
      rename_i t
      cases ht : t.data with
      | nil => exact absurd ht hne
      | cons c tt =>
          have hc : isNumChar c = true := by
            refine hall c ?_
            rw [ht]
            exact List.mem_cons_self c tt
          obtain ⟨_, _, _, h4, h5, _, _⟩ := numChar_ne hc
          exact ⟨c, tt, rfl, numChar_not_ws hc, h4, h5⟩
  | arrNil hw => exact ⟨'[', _, rfl, by decide, by decide, by decide⟩
  | arrCons hel => exact ⟨'[', _, rfl, by decide, by decide, by decide⟩
  | objNil hw => exact ⟨'{', _, rfl, by decide, by decide, by decide⟩
  | objCons hms => exact ⟨'{', _, rfl, by decide, by decide, by decide⟩

theorem emitsElems_skipWs_head {xs : List Json} {cs : List Char} (he : EmitsElems xs cs)
    (rest : List Char) : ∃ c t, skipWs (cs ++ rest) = c :: t ∧ c ≠ ']' ∧ c ≠ '}' := by
  cases he with
  | last hw1 hev hw2 =>
      rename_i x sv w1 w2
      obtain ⟨c, tv, hsv, hcw, hbr, hbc⟩ := emits_head hev
      refine ⟨c, tv ++ (w2 ++ ']' :: rest), ?_, hbr, hbc⟩
      have h2 : (w1 ++ sv ++ w2 ++ [']']) ++ rest = w1 ++ (sv ++ (w2 ++ ']' :: rest)) := by
        simp
      rw [h2, skipWs_ws_append hw1, hsv, List.cons_append, skipWs_not_ws hcw]
  | cons hw1 hev hw2 hel2 =>
      rename_i x xs2 sv rest2 w1 w2
      obtain ⟨c, tv, hsv, hcw, hbr, hbc⟩ := emits_head hev
      refine ⟨c, tv ++ (w2 ++ ',' :: (rest2 ++ rest)), ?_, hbr, hbc⟩
      have h2 : (w1 ++ sv ++ w2 ++ ',' :: rest2) ++ rest
          = w1 ++ (sv ++ (w2 ++ ',' :: (rest2 ++ rest))) := by simp
      rw [h2, skipWs_ws_append hw1, hsv, List.cons_append, skipWs_not_ws hcw]

theorem emitsMems_skipWs_head {ms : List (String × Json)} {cs : List Char}
    (he : EmitsMems ms cs) (rest : List Char) : ∃ t, skipWs (cs ++ rest) = '"' :: t := by
  cases he with
  | last hw1 hk hw2 hw3 hev hw4 =>
      rename_i k v sv w1 w2 w3 w4
      refine ⟨k.data ++ '"' :: w2 ++ ':' :: w3 ++ sv ++ w4 ++ '}' :: rest, ?_⟩
      have h2 : (w1 ++ '"' :: k.data ++ '"' :: w2 ++ ':' :: w3 ++ sv ++ w4 ++ ['}']) ++ rest
          = w1 ++ ('"' :: (k.data ++ '"' :: w2 ++ ':' :: w3 ++ sv ++ w4 ++ '}' :: rest)) := by
        simp
      rw [h2, skipWs_ws_append hw1, skipWs_not_ws (by decide)]
  | cons hw1 hk hw2 hw3 hev hw4 hms2 =>
      rename_i k v ms2 sv rest2 w1 w2 w3 w4
      refine ⟨k.data ++ '"' :: w2 ++ ':' :: w3 ++ sv ++ w4 ++ ',' :: (rest2 ++ rest), ?_⟩
      have h2 : (w1 ++ '"' :: k.data ++ '"' :: w2 ++ ':' :: w3 ++ sv ++ w4 ++ ',' :: rest2) ++ rest
          = w1 ++ ('"' :: (k.data ++ '"' :: w2 ++ ':' :: w3 ++ sv ++ w4 ++ ',' :: (rest2 ++ rest))) := by
        simp
      rw [h2, skipWs_ws_append hw1, skipWs_not_ws (by decide)]

theorem skipWs_emits_append {v : Json} {sv : List Char} (hev : Emits v sv)
    {w : List Char} (hw : WsRun w) (x : List Char) :
    skipWs (w ++ sv ++ x) = sv ++ x := by
  obtain ⟨c, tv, hsv, hcw, _, _⟩ := emits_head hev
  rw [List.append_assoc, skipWs_ws_append hw, hsv, List.cons_append, skipWs_not_ws hcw]

theorem parse_emits_all : ∀ fuel : Nat,
    (∀ j s, Emits j s → ∀ rest, jweight j ≤ fuel → numSafe rest →
      parseVal fuel (s ++ rest) = some (j, rest)) ∧
    (∀ ms s, EmitsMems ms s → ∀ rest acc, jweightMems ms ≤ fuel →
      parseMems fuel (s ++ rest) acc = some (.obj (acc ++ ms), rest)) ∧
    (∀ xs s, EmitsElems xs s → ∀ rest acc, jweightElems xs ≤ fuel →
      parseElems fuel (s ++ rest) acc = some (.arr (acc ++ xs), rest)) := by
  intro fuel
  induction fuel with
  | zero =>
      refine ⟨?_, ?_, ?_⟩
      · intro j s he rest hw _
        exfalso
        cases he <;> simp [jweight] at hw
      · intro ms s he rest acc hw
        exfalso
        cases he <;> simp [jweightMems] at hw
      · intro xs s he rest acc hw
        exfalso
        cases he <;> simp [jweightElems] at hw
  | succ fuel ih =>
      obtain ⟨ihv, ihm, ihe⟩ := ih
      refine ⟨?_, ?_, ?_⟩
      · intro j s he rest hw hns
        cases he with
        | str hs =>
            rename_i s0
            rw [parseVal_step]
            have h1 : ('"' :: s0.data ++ ['"']) ++ rest = '"' :: (s0.data ++ '"' :: rest) := by
              simp
            rw [h1, skipWs_not_ws (by decide)]
            simp [parseStrBody_plain s0 hs rest]
        | num hnt =>
            rename_i t
            obtain ⟨hne, hall⟩ := hnt
            obtain ⟨htw, hdw⟩ := numTok_parse t ⟨hne, hall⟩ rest hns
            rw [parseVal_step]
            cases ht : t.data with
            | nil => exact absurd ht hne
            | cons c tt =>
                rw [ht, List.cons_append] at htw hdw
                have hc : isNumChar c = true := by
                  refine hall c ?_
                  rw [ht]
                  exact List.mem_cons_self c tt
                obtain ⟨hq, hbo, hbk, _, _, _, _⟩ := numChar_ne hc
                have hcw := numChar_not_ws hc
                rw [List.cons_append, skipWs_not_ws hcw]
                simp only [hq, hbo, hbk, hc]
                simp [hq, hbo, hbk, hc, htw, hdw, ← ht]
        | arrNil hwr =>
            rename_i w
            rw [parseVal_step]
            have h1 : ('[' :: w ++ [']']) ++ rest = '[' :: (w ++ ']' :: rest) := by simp
            have h2 : skipWs (w ++ ']' :: rest) = ']' :: rest := by
              rw [skipWs_ws_append hwr, skipWs_not_ws (by decide)]
            rw [h1, skipWs_not_ws (by decide)]
            simp [h2]
        | objNil hwr =>
            rename_i w
            rw [parseVal_step]
            have h1 : ('{' :: w ++ ['}']) ++ rest = '{' :: (w ++ '}' :: rest) := by simp
            have h2 : skipWs (w ++ '}' :: rest) = '}' :: rest := by
              rw [skipWs_ws_append hwr, skipWs_not_ws (by decide)]
            rw [h1, skipWs_not_ws (by decide)]
            simp [h2]
        | arrCons hel =>
            rename_i xs cs
            have hwle : jweightElems xs ≤ fuel := by
              simp only [jweight] at hw
              omega
            have hrec := ihe xs cs hel rest [] hwle
            obtain ⟨c, t, hskip, hcbr, _⟩ := emitsElems_skipWs_head hel rest
            rw [parseVal_step]
            have h1 : ('[' :: cs) ++ rest = '[' :: (cs ++ rest) := rfl
            rw [h1, skipWs_not_ws (by decide)]
            simp only [hskip]
            simp only [if_neg hcbr]
            rw [← hskip, parseElems_skipWs]
            simpa using hrec
        | objCons hms =>
            rename_i ms cs
            have hwle : jweightMems ms ≤ fuel := by
              simp only [jweight] at hw
              omega
            have hrec := ihm ms cs hms rest [] hwle
            obtain ⟨t, hskip⟩ := emitsMems_skipWs_head hms rest
            rw [parseVal_step]
            have h1 : ('{' :: cs) ++ rest = '{' :: (cs ++ rest) := rfl
            rw [h1, skipWs_not_ws (by decide)]
            simp only [hskip]
            simp only [if_neg (by decide : ¬ ('"' = '}'))]
            rw [← hskip, parseMems_skipWs]
            simpa using hrec
      · intro ms s he rest acc hw
        cases he with
        | last hw1 hk hw2 hw3 hev hw4 =>
            rename_i k v sv w1 w2 w3 w4
            have hwv : jweight v ≤ fuel := by
              simp only [jweightMems] at hw
              omega
            rw [parseMems_step]
            have h2 : (w1 ++ '"' :: k.data ++ '"' :: w2 ++ ':' :: w3 ++ sv ++ w4 ++ ['}']) ++ rest
                = w1 ++ ('"' :: (k.data ++ '"' :: (w2 ++ ':' :: (w3 ++ (sv ++ (w4 ++ '}' :: rest)))))) := by
              simp
            rw [h2, skipWs_ws_append hw1, skipWs_not_ws (by decide)]
            have hstr := parseStrBody_plain k hk (w2 ++ ':' :: (w3 ++ (sv ++ (w4 ++ '}' :: rest))))
            simp only [hstr]
            have h3 : skipWs (w2 ++ ':' :: (w3 ++ (sv ++ (w4 ++ '}' :: rest))))
                = ':' :: (w3 ++ (sv ++ (w4 ++ '}' :: rest))) := by
              rw [skipWs_ws_append hw2, skipWs_not_ws (by decide)]
            simp only [h3]
            have h4 : parseVal fuel (w3 ++ (sv ++ (w4 ++ '}' :: rest)))
                = some (v, w4 ++ '}' :: rest) := by
              rw [← parseVal_skipWs]
              rw [show w3 ++ (sv ++ (w4 ++ '}' :: rest)) = w3 ++ sv ++ (w4 ++ '}' :: rest) by simp]
              rw [skipWs_emits_append hev hw3]
              exact ihv v sv hev (w4 ++ '}' :: rest) hwv
                (numSafe_ws hw4 _ (by exact (by decide : isNumChar '}' = false)))
            simp only [h4]
            have h5 : skipWs (w4 ++ '}' :: rest) = '}' :: rest := by
              rw [skipWs_ws_append hw4, skipWs_not_ws (by decide)]
            simp only [h5]
        | cons hw1 hk hw2 hw3 hev hw4 hms2 =>
            rename_i k v ms2 sv rest2 w1 w2 w3 w4
            have hwv : jweight v ≤ fuel := by
              simp only [jweightMems] at hw
              omega
            have hwm : jweightMems ms2 ≤ fuel := by
              simp only [jweightMems] at hw
              omega
            rw [parseMems_step]
            have h2 : (w1 ++ '"' :: k.data ++ '"' :: w2 ++ ':' :: w3 ++ sv ++ w4 ++ ',' :: rest2) ++ rest
                = w1 ++ ('"' :: (k.data ++ '"' :: (w2 ++ ':' :: (w3 ++ (sv ++ (w4 ++ ',' :: (rest2 ++ rest))))))) := by
              simp
            rw [h2, skipWs_ws_append hw1, skipWs_not_ws (by decide)]
            have hstr := parseStrBody_plain k hk (w2 ++ ':' :: (w3 ++ (sv ++ (w4 ++ ',' :: (rest2 ++ rest)))))
            simp only [hstr]
            have h3 : skipWs (w2 ++ ':' :: (w3 ++ (sv ++ (w4 ++ ',' :: (rest2 ++ rest)))))
                = ':' :: (w3 ++ (sv ++ (w4 ++ ',' :: (rest2 ++ rest)))) := by
              rw [skipWs_ws_append hw2, skipWs_not_ws (by decide)]
            simp only [h3]
            have h4 : parseVal fuel (w3 ++ (sv ++ (w4 ++ ',' :: (rest2 ++ rest))))
                = some (v, w4 ++ ',' :: (rest2 ++ rest)) := by
              rw [← parseVal_skipWs]
              rw [show w3 ++ (sv ++ (w4 ++ ',' :: (rest2 ++ rest)))
                  = w3 ++ sv ++ (w4 ++ ',' :: (rest2 ++ rest)) by simp]
              rw [skipWs_emits_append hev hw3]
              exact ihv v sv hev (w4 ++ ',' :: (rest2 ++ rest)) hwv
                (numSafe_ws hw4 _ (by exact (by decide : isNumChar ',' = false)))
            simp only [h4]
            have h5 : skipWs (w4 ++ ',' :: (rest2 ++ rest)) = ',' :: (rest2 ++ rest) := by
              rw [skipWs_ws_append hw4, skipWs_not_ws (by decide)]
            simp only [h5]
            have hrec := ihm ms2 rest2 hms2 rest (acc ++ [(k, v)]) hwm
            rw [hrec]
            simp
      · intro xs s he rest acc hw
        cases he with
        | last hw1 hev hw2 =>
            rename_i x sv w1 w2
            have hwv : jweight x ≤ fuel := by
              simp only [jweightElems] at hw
              omega
            rw [parseElems_step]
            have h4 : parseVal fuel ((w1 ++ sv ++ w2 ++ [']']) ++ rest)
                = some (x, w2 ++ ']' :: rest) := by
              rw [← parseVal_skipWs]
              rw [show (w1 ++ sv ++ w2 ++ [']']) ++ rest = w1 ++ sv ++ (w2 ++ ']' :: rest) by simp]
              rw [skipWs_emits_append hev hw1]
              exact ihv x sv hev (w2 ++ ']' :: rest) hwv
                (numSafe_ws hw2 _ (by exact (by decide : isNumChar ']' = false)))
            simp only [h4]
            have h5 : skipWs (w2 ++ ']' :: rest) = ']' :: rest := by
              rw [skipWs_ws_append hw2, skipWs_not_ws (by decide)]
            simp only [h5]
        | cons hw1 hev hw2 hel2 =>
            rename_i x xs2 sv rest2 w1 w2
            have hwv : jweight x ≤ fuel := by
              simp only [jweightElems] at hw
              omega
            have hwe : jweightElems xs2 ≤ fuel := by
              simp only [jweightElems] at hw
              omega
            rw [parseElems_step]
            have h4 : parseVal fuel ((w1 ++ sv ++ w2 ++ ',' :: rest2) ++ rest)
                = some (x, w2 ++ ',' :: (rest2 ++ rest)) := by
              rw [← parseVal_skipWs]
              rw [show (w1 ++ sv ++ w2 ++ ',' :: rest2) ++ rest
                  = w1 ++ sv ++ (w2 ++ ',' :: (rest2 ++ rest)) by simp]
              rw [skipWs_emits_append hev hw1]
              exact ihv x sv hev (w2 ++ ',' :: (rest2 ++ rest)) hwv
                (numSafe_ws hw2 _ (by exact (by decide : isNumChar ',' = false)))
            simp only [h4]
            have h5 : skipWs (w2 ++ ',' :: (rest2 ++ rest)) = ',' :: (rest2 ++ rest) := by
              rw [skipWs_ws_append hw2, skipWs_not_ws (by decide)]
            simp only [h5]
            have hrec := ihe xs2 rest2 hel2 rest (acc ++ [x]) hwe
            rw [hrec]
            simp

theorem emits_weight_all : ∀ n : Nat,
    (∀ j s, Emits j s → s.length ≤ n → jweight j ≤ s.length) ∧
    (∀ ms s, EmitsMems ms s → s.length ≤ n → jweightMems ms ≤ s.length) ∧
    (∀ xs s, EmitsElems xs s → s.length ≤ n → jweightElems xs ≤ s.length) := by
  intro n
  induction n with
  | zero =>
      refine ⟨?_, ?_, ?_⟩
      · intro j s he hl
        exfalso
        cases he with
        | str hs => simp at hl
        | num hnt =>
            obtain ⟨hne, _⟩ := hnt
            have := List.length_pos.mpr hne
            omega
        | arrNil hw => simp at hl
        | arrCons hel => simp at hl
        | objNil hw => simp at hl
        | objCons hms => simp at hl
      · intro ms s he hl
        exfalso
        cases he <;>
          (simp only [List.length_append, List.length_cons] at hl; omega)
      · intro xs s he hl
        exfalso
        cases he <;>
          (simp only [List.length_append, List.length_cons] at hl; omega)
  | succ n ih =>
      obtain ⟨ihv, ihm, ihe⟩ := ih
      refine ⟨?_, ?_, ?_⟩
      · intro j s he hl
        cases he with
        | str hs => simp [jweight]
        | num hnt =>
            obtain ⟨hne, _⟩ := hnt
            have : 0 < (List.length _) := List.length_pos.mpr hne
            simp only [jweight]
            omega
        | arrNil hw => simp [jweight, jweightElems]
        | objNil hw => simp [jweight, jweightMems]
        | arrCons hel =>
            rename_i xs cs
            have hcs : cs.length ≤ n := by
              simp at hl
              omega
            have := ihe xs cs hel hcs
            simp only [jweight, List.length_cons]
            omega
        | objCons hms =>
            rename_i ms cs
            have hcs : cs.length ≤ n := by
              simp at hl
              omega
            have := ihm ms cs hms hcs
            simp only [jweight, List.length_cons]
            omega
      · intro ms s he hl
        cases he with
        | last hw1 hk hw2 hw3 hev hw4 =>
            rename_i k v sv w1 w2 w3 w4
            simp only [List.length_append, List.length_cons] at hl
            have hsv : sv.length ≤ n := by omega
            have := ihv v sv hev hsv
            simp only [jweightMems, jweightMems.eq_def, jweight]
            simp only [List.length_append, List.length_cons]
            omega
        | cons hw1 hk hw2 hw3 hev hw4 hms2 =>
            rename_i k v ms2 sv rest2 w1 w2 w3 w4
            simp only [List.length_append, List.length_cons] at hl
            have hsv : sv.length ≤ n := by omega
            have hrest : rest2.length ≤ n := by omega
            have h1 := ihv v sv hev hsv
            have h2 := ihm ms2 rest2 hms2 hrest
            simp only [jweightMems]
            simp only [List.length_append, List.length_cons]
            omega
      · intro xs s he hl
        cases he with
        | last hw1 hev hw2 =>
            rename_i x sv w1 w2
            simp only [List.length_append, List.length_cons] at hl
            have hsv : sv.length ≤ n := by omega
            have := ihv x sv hev hsv
            simp only [jweightElems, jweightElems.eq_def]
            simp only [List.length_append, List.length_cons]
            omega
        | cons hw1 hev hw2 hel2 =>
            rename_i x xs2 sv rest2 w1 w2
            simp only [List.length_append, List.length_cons] at hl
            have hsv : sv.length ≤ n := by omega
            have hrest : rest2.length ≤ n := by omega
            have h1 := ihv x sv hev hsv
            have h2 := ihe xs2 rest2 hel2 hrest
            simp only [jweightElems]
            simp only [List.length_append, List.length_cons]
            omega

theorem emits_weight {j : Json} {s : List Char} (he : Emits j s) : jweight j ≤ s.length :=
  (emits_weight_all s.length).1 j s he (le_refl _)

mutual
def WFJson : Json → Prop
  | .num t => NumTok t
  | .str s => StrPlain s
  | .arr xs => WFElems xs
  | .obj ms => WFMems ms
def WFElems : List Json → Prop
  | [] => True
  | x :: xs => WFJson x ∧ WFElems xs
def WFMems : List (String × Json) → Prop
  | [] => True
  | m :: ms => StrPlain m.1 ∧ WFJson m.2 ∧ WFMems ms
end

theorem wsRun_spaces (n : Nat) : WsRun (spacesN n) := by
  intro c hc
  rw [spacesN] at hc
  rw [List.eq_of_mem_replicate hc]
  decide

theorem wsRun_append {w1 w2 : List Char} (h1 : WsRun w1) (h2 : WsRun w2) : WsRun (w1 ++ w2) := by
  intro c hc
  rcases List.mem_append.mp hc with hc | hc
  · exact h1 c hc
  · exact h2 c hc

theorem wsRun_cons {c : Char} {w : List Char} (hc : isWsChar c = true) (h : WsRun w) :
    WsRun (c :: w) := by
  intro x hx
  rcases List.mem_cons.mp hx with rfl | hx
  · exact hc
  · exact h x hx

theorem wsRun_nil : WsRun [] := by
  intro c hc
  exact absurd hc (List.not_mem_nil c)

mutual
theorem printJson_emits : ∀ (j : Json) (d : Nat), WFJson j → Emits j (printJson d j)
  | .num t, d, hwf => by
      rw [printJson]
      exact Emits.num hwf
  | .str s, d, hwf => by
      rw [printJson]
      exact Emits.str hwf
  | .arr [], d, hwf => by
      rw [printJson]
      exact Emits.arrNil wsRun_nil
  | .arr (x :: xs), d, hwf => by
      rw [printJson]
      refine Emits.arrCons ?_
      have h := printElems_emits (x :: xs) (d + 2) (by simp) hwf ['\n']
        ('\n' :: spacesN d) (by exact wsRun_cons (by decide) wsRun_nil)
        (by exact wsRun_cons (by decide) (wsRun_spaces d))
      simpa using h
  | .obj [], d, hwf => by
      rw [printJson]
      exact Emits.objNil wsRun_nil
  | .obj (m :: ms), d, hwf => by
      rw [printJson]
      refine Emits.objCons ?_
      have h := printMems_emits (m :: ms) (d + 2) (by simp) hwf ['\n']
        ('\n' :: spacesN d) (by exact wsRun_cons (by decide) wsRun_nil)
        (by exact wsRun_cons (by decide) (wsRun_spaces d))
      simpa using h
termination_by j => sizeOf j
theorem printElems_emits : ∀ (xs : List Json) (d : Nat), xs ≠ [] → WFElems xs →
    ∀ (pre w : List Char), WsRun pre → WsRun w →
    EmitsElems xs (pre ++ printElems d xs ++ w ++ [']'])
  | [], _, hne, _, _, _, _, _ => absurd rfl hne
  | [x], d, _, hwf, pre, w, hpre, hw => by
      rw [printElems]
      obtain ⟨hx, _⟩ := hwf
      have h := @EmitsElems.last x (printJson d x) (pre ++ spacesN d) w
        (wsRun_append hpre (wsRun_spaces d)) (printJson_emits x d hx) hw
      simpa [List.append_assoc] using h
  | x :: y :: xs, d, _, hwf, pre, w, hpre, hw => by
      rw [printElems]
      obtain ⟨hx, hrest⟩ := hwf
      have hrec := printElems_emits (y :: xs) d (by simp) hrest ['\n'] w
        (wsRun_cons (by decide) wsRun_nil) hw
      have h := @EmitsElems.cons x (y :: xs) (printJson d x)
        (['\n'] ++ printElems d (y :: xs) ++ w ++ [']']) (pre ++ spacesN d) []
        (wsRun_append hpre (wsRun_spaces d)) (printJson_emits x d hx) wsRun_nil hrec
      simpa [List.append_assoc] using h
termination_by xs => sizeOf xs
theorem printMems_emits : ∀ (ms : List (String × Json)) (d : Nat), ms ≠ [] → WFMems ms →
    ∀ (pre w : List Char), WsRun pre → WsRun w →
    EmitsMems ms (pre ++ printMems d ms ++ w ++ ['}'])
  | [], _, hne, _, _, _, _, _ => absurd rfl hne
  | [(k, v)], d, _, hwf, pre, w, hpre, hw => by
      rw [printMems]
      obtain ⟨hk, hv, _⟩ := hwf
      have h := @EmitsMems.last k v (printJson d v) (pre ++ spacesN d) [] [' '] w
        (wsRun_append hpre (wsRun_spaces d)) hk wsRun_nil
        (wsRun_cons (by decide) wsRun_nil) (printJson_emits v d hv) hw
      simpa [List.append_assoc] using h
  | (k, v) :: m :: ms, d, _, hwf, pre, w, hpre, hw => by
      rw [printMems]
      obtain ⟨hk, hv, hrest⟩ := hwf
      have hrec := printMems_emits (m :: ms) d (by simp) hrest ['\n'] w
        (wsRun_cons (by decide) wsRun_nil) hw
      have h := @EmitsMems.cons k v (m :: ms) (printJson d v)
        (['\n'] ++ printMems d (m :: ms) ++ w ++ ['}']) (pre ++ spacesN d) [] [' '] []
        (wsRun_append hpre (wsRun_spaces d)) hk wsRun_nil
        (wsRun_cons (by decide) wsRun_nil) (printJson_emits v d hv) wsRun_nil hrec
      simpa [List.append_assoc] using h
termination_by ms => sizeOf ms
end

theorem splitNL_ne_nil (cs : List Char) : splitNL cs ≠ [] := by
  cases cs with
  | nil => simp [splitNL]
  | cons c rest =>
      rw [splitNL]
      by_cases hc : c = '\n'
      · simp [hc]
      · rw [if_neg hc]
        cases h : splitNL rest <;> simp

theorem splitNL_no_nl : ∀ (l : List Char), '\n' ∉ l → splitNL l = [l]
  | [], _ => rfl
  | c :: rest, h => by
      have hc : c ≠ '\n' := by
        intro hc
        exact h (hc ▸ List.mem_cons_self c rest)
      have hr : '\n' ∉ rest := fun hm => h (List.mem_cons_of_mem c hm)
      rw [splitNL, if_neg hc, splitNL_no_nl rest hr]

theorem splitNL_append_nl : ∀ (l1 : List Char), '\n' ∉ l1 → ∀ (l2 : List Char),
    splitNL (l1 ++ '\n' :: l2) = l1 :: splitNL l2
  | [], _, l2 => by
      rw [List.nil_append, splitNL, if_pos rfl]
  | c :: rest, h, l2 => by
      have hc : c ≠ '\n' := by
        intro hc
        exact h (hc ▸ List.mem_cons_self c rest)
      have hr : '\n' ∉ rest := fun hm => h (List.mem_cons_of_mem c hm)
      rw [List.cons_append, splitNL, if_neg hc, splitNL_append_nl rest hr l2]

theorem joinNL_cons (x : List Char) (xs : List (List Char)) (h : xs ≠ []) :
    joinNL (x :: xs) = x ++ '\n' :: joinNL xs := by
  cases xs with
  | nil => exact absurd rfl h
  | cons y ys => rfl

def ScalarJson : Json → Prop
  | .num t => NumTok t
  | .str s => StrPlain s
  | .arr _ => False
  | .obj _ => False

theorem scalar_wf {v : Json} (hv : ScalarJson v) : WFJson v := by
  cases v with
  | num t => exact hv
  | str s => exact hv
  | arr xs => exact absurd hv (by simp [ScalarJson])
  | obj ms => exact absurd hv (by simp [ScalarJson])

theorem scalar_no_nl {v : Json} (hv : ScalarJson v) (d : Nat) : '\n' ∉ printJson d v := by
  cases v with
  | num t =>
      rw [printJson]
      intro hm
      have := hv.2 '\n' hm
      exact absurd this (by decide)
  | str s =>
      rw [printJson]
      intro hm
      rcases List.mem_cons.mp hm with hq | hm2
      · exact absurd hq (by decide)
      · rcases List.mem_append.mp hm2 with hs | hq
        · have := (hv '\n' hs).1
          exact absurd this (by decide)
        · rw [List.mem_singleton] at hq
          exact absurd hq (by decide)
  | arr xs => exact absurd hv (by simp [ScalarJson])
  | obj ms => exact absurd hv (by simp [ScalarJson])

theorem plain_no_nl {s : String} (hs : StrPlain s) : '\n' ∉ s.data := by
  intro hm
  have := (hs '\n' hm).1
  exact absurd this (by decide)

theorem quote_line_not_blank {l1 l2 : List Char} :
    (l1 ++ '"' :: l2).all isWsChar = false := by
  rcases Bool.eq_false_or_eq_true ((l1 ++ '"' :: l2).all isWsChar) with ht | hf
  · exfalso
    have := List.all_eq_true.mp ht '"' (by simp)
    exact absurd this (by decide)
  · exact hf

theorem memberLine_no_nl {k : String} {v : Json} (hk : StrPlain k) (hv : ScalarJson v) :
    '\n' ∉ spacesN 2 ++ '"' :: k.data ++ '"' :: ':' :: ' ' :: printJson 2 v := by
  intro hm
  rcases List.mem_append.mp hm with hm1 | hm2
  · rcases List.mem_append.mp hm1 with hsp | hm3
    · exact absurd (List.eq_of_mem_replicate hsp) (by decide)
    · rcases List.mem_cons.mp hm3 with hq | hkd
      · exact absurd hq (by decide)
      · exact plain_no_nl hk hkd
  · rcases List.mem_cons.mp hm2 with hq | hm4
    · exact absurd hq (by decide)
    · rcases List.mem_cons.mp hm4 with hq | hm5
      · exact absurd hq (by decide)
      · rcases List.mem_cons.mp hm5 with hq | hm6
        · exact absurd hq (by decide)
        · exact scalar_no_nl hv 2 hm6

theorem flat_mems_padded : ∀ (ms : List (String × Json)), ms ≠ [] →
    (∀ m ∈ ms, StrPlain m.1 ∧ ScalarJson m.2) → ∀ n : Nat,
    EmitsMems ms
      ('\n' :: joinNL ((splitNL (printMems 2 ms ++ '\n' :: ['}'])).map (padFn n)))
  | [], hne, _, _ => absurd rfl hne
  | [(k, v)], _, hwf, n => by
      obtain ⟨hk, hv⟩ := hwf (k, v) (List.mem_cons_self _ _)
      rw [printMems]
      have hline := memberLine_no_nl hk hv
      rw [show (spacesN 2 ++ '"' :: k.data ++ '"' :: ':' :: ' ' :: printJson 2 v) ++ '\n' :: ['}']
          = (spacesN 2 ++ '"' :: k.data ++ '"' :: ':' :: ' ' :: printJson 2 v) ++ '\n' :: ['}'] from rfl]
      rw [splitNL_append_nl _ hline, splitNL_no_nl ['}'] (by decide)]
      rw [List.map_cons, List.map_cons, List.map_nil]
      rw [show padFn n (spacesN 2 ++ '"' :: k.data ++ '"' :: ':' :: ' ' :: printJson 2 v)
          = spacesN n ++ (spacesN 2 ++ '"' :: k.data ++ '"' :: ':' :: ' ' :: printJson 2 v) by
        rw [padFn]
        rw [show (spacesN 2 ++ '"' :: k.data ++ '"' :: ':' :: ' ' :: printJson 2 v).all isWsChar
            = false from quote_line_not_blank]
        rfl]
      rw [show padFn n ['}'] = spacesN n ++ ['}'] by rw [padFn]; rfl]
      rw [joinNL_cons _ _ (by simp)]
      rw [show joinNL [spacesN n ++ ['}']] = spacesN n ++ ['}'] from rfl]
      have h := @EmitsMems.last k v (printJson 2 v) ('\n' :: spacesN n ++ spacesN 2) []
        [' '] ('\n' :: spacesN n)
        (wsRun_cons (by decide) (wsRun_append (wsRun_spaces n) (wsRun_spaces 2))) hk
        wsRun_nil (wsRun_cons (by decide) wsRun_nil)
        (printJson_emits v 2 (scalar_wf hv)) (wsRun_cons (by decide) (wsRun_spaces n))
      simpa [List.append_assoc] using h
  | (k, v) :: m2 :: ms2, _, hwf, n => by
      obtain ⟨hk, hv⟩ := hwf (k, v) (List.mem_cons_self _ _)
      have hwf2 : ∀ m ∈ m2 :: ms2, StrPlain m.1 ∧ ScalarJson m.2 :=
        fun m hm => hwf m (List.mem_cons_of_mem _ hm)
      have hrec := flat_mems_padded (m2 :: ms2) (by simp) hwf2 n
      rw [printMems]
      have hline := memberLine_no_nl hk hv
      have hline2 : '\n' ∉ (spacesN 2 ++ '"' :: k.data ++ '"' :: ':' :: ' ' :: printJson 2 v)
          ++ [','] := by
        intro hm
        rcases List.mem_append.mp hm with hm | hm
        · exact hline hm
        · rw [List.mem_singleton] at hm
          exact absurd hm (by decide)
      rw [show (spacesN 2 ++ '"' :: k.data ++ '"' :: ':' :: ' ' :: printJson 2 v
            ++ ',' :: '\n' :: printMems 2 (m2 :: ms2)) ++ '\n' :: ['}']
          = ((spacesN 2 ++ '"' :: k.data ++ '"' :: ':' :: ' ' :: printJson 2 v) ++ [','])
            ++ '\n' :: (printMems 2 (m2 :: ms2) ++ '\n' :: ['}']) by simp]
      rw [splitNL_append_nl _ hline2]
      rw [List.map_cons]
      rw [show padFn n ((spacesN 2 ++ '"' :: k.data ++ '"' :: ':' :: ' ' :: printJson 2 v) ++ [','])
          = spacesN n ++ ((spacesN 2 ++ '"' :: k.data ++ '"' :: ':' :: ' ' :: printJson 2 v) ++ [',']) by
        rw [padFn]
        rw [show ((spacesN 2 ++ '"' :: k.data ++ '"' :: ':' :: ' ' :: printJson 2 v) ++ [',']).all isWsChar
            = false by
          rw [show (spacesN 2 ++ '"' :: k.data ++ '"' :: ':' :: ' ' :: printJson 2 v) ++ [',']
              = spacesN 2 ++ '"' :: (k.data ++ '"' :: ':' :: ' ' :: printJson 2 v ++ [',']) by simp
            ]
          exact quote_line_not_blank]
        rfl]
      rw [joinNL_cons _ _ (by
        intro hmap
        have := List.map_eq_nil_iff.mp hmap
        exact splitNL_ne_nil _ this)]
      have h := @EmitsMems.cons k v (m2 :: ms2) (printJson 2 v)
        ('\n' :: joinNL ((splitNL (printMems 2 (m2 :: ms2) ++ '\n' :: ['}'])).map (padFn n)))
        ('\n' :: spacesN n ++ spacesN 2) [] [' '] []
        (wsRun_cons (by decide) (wsRun_append (wsRun_spaces n) (wsRun_spaces 2))) hk
        wsRun_nil (wsRun_cons (by decide) wsRun_nil)
        (printJson_emits v 2 (scalar_wf hv)) wsRun_nil hrec
      simpa [List.append_assoc] using h

def FlatPlain : Json → Prop
  | .obj ms => ms ≠ [] ∧ ∀ m ∈ ms, StrPlain m.1 ∧ ScalarJson m.2
  | _ => False

theorem flat_obj_padded (j : Json) (hf : FlatPlain j) (n : Nat) :
    ∃ cs, indentLines n (printJson 0 j) = spacesN n ++ '{' :: cs ∧ Emits j ('{' :: cs) := by
  match j, hf with
  | .obj ms, hf =>
      obtain ⟨hne, hwf⟩ := hf
      match ms, hne with
      | m :: ms2, _ =>
          refine ⟨'\n' :: joinNL ((splitNL (printMems 2 (m :: ms2) ++ '\n' :: ['}'])).map (padFn n)),
            ?_, Emits.objCons (flat_mems_padded (m :: ms2) (by simp) hwf n)⟩
          rw [printJson, indentLines]
          rw [show spacesN 0 ++ ['}'] = ['}'] from rfl]
          rw [show ('{' :: '\n' :: (printMems 2 (m :: ms2) ++ '\n' :: ['}']))
              = ['{'] ++ '\n' :: (printMems 2 (m :: ms2) ++ '\n' :: ['}']) from rfl]
          rw [splitNL_append_nl ['{'] (by decide)]
          rw [List.map_cons]
          rw [show padFn n ['{'] = spacesN n ++ ['{'] by rw [padFn]; rfl]
          rw [joinNL_cons _ _ (by
            intro hmap
            exact splitNL_ne_nil _ (List.map_eq_nil_iff.mp hmap))]
          simp

theorem entriesBlock_emits : ∀ (js : List Json), js ≠ [] → (∀ j ∈ js, FlatPlain j) →
    ∀ (pre : List Char), WsRun pre →
    EmitsElems js (pre ++ entriesBlock js ++ spacesN 2 ++ [']'])
  | [], hne, _, _, _ => absurd rfl hne
  | [j], _, hwf, pre, hpre => by
      obtain ⟨cs, heq, hemit⟩ := flat_obj_padded j (hwf j (List.mem_cons_self _ _)) 4
      rw [entriesBlock, heq]
      have h := @EmitsElems.last j ('{' :: cs) (pre ++ spacesN 4)
        ('\n' :: spacesN 2) (wsRun_append hpre (wsRun_spaces 4)) hemit
        (wsRun_cons (by decide) (wsRun_spaces 2))
      simpa [List.append_assoc] using h
  | j :: j2 :: js, _, hwf, pre, hpre => by
      obtain ⟨cs, heq, hemit⟩ := flat_obj_padded j (hwf j (List.mem_cons_self _ _)) 4
      have hwf2 : ∀ x ∈ j2 :: js, FlatPlain x := fun x hx => hwf x (List.mem_cons_of_mem _ hx)
      have hrec := entriesBlock_emits (j2 :: js) (by simp) hwf2 ['\n']
        (wsRun_cons (by decide) wsRun_nil)
      rw [entriesBlock, heq]
      have h := @EmitsElems.cons j (j2 :: js) ('{' :: cs)
        (['\n'] ++ entriesBlock (j2 :: js) ++ spacesN 2 ++ [']']) (pre ++ spacesN 4) []
        (wsRun_append hpre (wsRun_spaces 4)) hemit wsRun_nil hrec
      simpa [List.append_assoc] using h

theorem arrBlock_emits (js : List Json) (hwf : ∀ j ∈ js, FlatPlain j) :
    Emits (.arr js) ('[' :: '\n' :: (entriesBlock js ++ spacesN 2 ++ [']'])) := by
  cases js with
  | nil =>
      have h := @Emits.arrNil ('\n' :: spacesN 2) (wsRun_cons (by decide) (wsRun_spaces 2))
      simpa [entriesBlock, List.append_assoc] using h
  | cons j js2 =>
      have h := Emits.arrCons (entriesBlock_emits (j :: js2) (by simp) hwf ['\n']
        (wsRun_cons (by decide) wsRun_nil))
      simpa [List.append_assoc] using h

instance (s : String) : Decidable (StrPlain s) := by
  unfold StrPlain
  infer_instance

instance (t : String) : Decidable (NumTok t) := by
  unfold NumTok
  exact instDecidableAnd

instance (w : List Char) : Decidable (WsRun w) := by
  unfold WsRun
  infer_instance

theorem streamRaw_emits (root : String) (stats : Json) (dJ uJ gJ : List Json)
    (hroot : StrPlain root) (hstats : WFJson stats)
    (hd : ∀ j ∈ dJ, FlatPlain j) (hu : ∀ j ∈ uJ, FlatPlain j) (hg : ∀ j ∈ gJ, FlatPlain j) :
    ∃ tail : List Char,
      streamRaw root stats dJ uJ gJ = ('{' :: tail) ++ ['\n'] ∧
      Emits (.obj [("root", Json.str root), ("stats", stats), ("dirs", Json.arr dJ),
        ("users", Json.arr uJ), ("groups", Json.arr gJ)]) ('{' :: tail) := by
  have hws2 : WsRun ('\n' :: spacesN 2) := wsRun_cons (by decide) (wsRun_spaces 2)
  have hwnil : WsRun ([] : List Char) := wsRun_nil
  have hwsp : WsRun [' '] := wsRun_cons (by decide) wsRun_nil
  have hwnl : WsRun ['\n'] := wsRun_cons (by decide) wsRun_nil
  have e5 : Emits (Json.arr gJ) ('[' :: '\n' :: (entriesBlock gJ ++ spacesN 2 ++ [']'])) :=
    arrBlock_emits gJ hg
  have e4 : Emits (Json.arr uJ) ('[' :: '\n' :: (entriesBlock uJ ++ spacesN 2 ++ [']'])) :=
    arrBlock_emits uJ hu
  have e3 : Emits (Json.arr dJ) ('[' :: '\n' :: (entriesBlock dJ ++ spacesN 2 ++ [']'])) :=
    arrBlock_emits dJ hd
  have hm5 := @EmitsMems.last "groups" (Json.arr gJ)
    ('[' :: '\n' :: (entriesBlock gJ ++ spacesN 2 ++ [']']))
    ('\n' :: spacesN 2) [] [' '] ['\n']
    hws2 (by decide) hwnil hwsp e5 hwnl
  have hm4 := @EmitsMems.cons "users" (Json.arr uJ) [("groups", Json.arr gJ)]
    ('[' :: '\n' :: (entriesBlock uJ ++ spacesN 2 ++ [']'])) _
    ('\n' :: spacesN 2) [] [' '] []
    hws2 (by decide) hwnil hwsp e4 hwnil hm5
  have hm3 := @EmitsMems.cons "dirs" (Json.arr dJ)
    [("users", Json.arr uJ), ("groups", Json.arr gJ)]
    ('[' :: '\n' :: (entriesBlock dJ ++ spacesN 2 ++ [']'])) _
    ('\n' :: spacesN 2) [] [' '] []
    hws2 (by decide) hwnil hwsp e3 hwnil hm4
  have hm2 := @EmitsMems.cons "stats" stats
    [("dirs", Json.arr dJ), ("users", Json.arr uJ), ("groups", Json.arr gJ)]
    (printJson 0 stats) _
    ('\n' :: spacesN 2) [] [' '] []
    hws2 (by decide) hwnil hwsp (printJson_emits stats 0 hstats) hwnil hm3
  have hm1 := @EmitsMems.cons "root" (Json.str root)
    [("stats", stats), ("dirs", Json.arr dJ), ("users", Json.arr uJ), ("groups", Json.arr gJ)]
    (printJson 0 (Json.str root)) _
    ('\n' :: spacesN 2) [] [' '] []
    hws2 (by decide) hwnil hwsp (printJson_emits (Json.str root) 0 hroot) hwnil hm2
  refine ⟨_, ?_, Emits.objCons hm1⟩
  rw [streamRaw]
  simp only [List.append_assoc, List.cons_append, List.nil_append,
    show ("\x7b\n" : String).data = ['{', '\n'] from rfl,
    show (",\n" : String).data = [',', '\n'] from rfl,
    show ("  \"root\": " : String).data
      = [' ', ' ', '"', 'r', 'o', 'o', 't', '"', ':', ' '] from rfl,
    show ("  \"stats\": " : String).data
      = [' ', ' ', '"', 's', 't', 'a', 't', 's', '"', ':', ' '] from rfl,
    show ("  \"dirs\": [\n" : String).data
      = [' ', ' ', '"', 'd', 'i', 'r', 's', '"', ':', ' ', '[', '\n'] from rfl,
    show ("  \"users\": [\n" : String).data
      = [' ', ' ', '"', 'u', 's', 'e', 'r', 's', '"', ':', ' ', '[', '\n'] from rfl,
    show ("  \"groups\": [\n" : String).data
      = [' ', ' ', '"', 'g', 'r', 'o', 'u', 'p', 's', '"', ':', ' ', '[', '\n'] from rfl,
    show ("  ],\n" : String).data = [' ', ' ',  ']', ',', '\n'] from rfl,
    show ("  ]\n" : String).data = [' ', ' ',  ']', '\n'] from rfl,
    show ("\x7d\n" : String).data = ['}', '\n'] from rfl,
    show ("root" : String).data = ['r', 'o', 'o', 't'] from rfl,
    show ("stats" : String).data = ['s', 't', 'a', 't', 's'] from rfl,
    show ("dirs" : String).data = ['d', 'i', 'r', 's'] from rfl,
    show ("users" : String).data = ['u', 's', 'e', 'r', 's'] from rfl,
    show ("groups" : String).data = ['g', 'r', 'o', 'u', 'p', 's'] from rfl,
    show spacesN 2 = [' ', ' '] from rfl]

theorem numSafe_nl : numSafe ['\n'] := by
  show isNumChar '\n' = false
  decide

/-- The decimal token the encoder writes for a `Nat` field is a numeric
token. -/
theorem natRepr_numTok (n : Nat) : NumTok (natRepr n) := by
  refine ⟨natChars_ne_nil n, ?_⟩
  intro c hc
  have := natChars_digits n c hc
  simp [isNumChar, this]

/-- The decimal token the encoder writes for an `Int` field is a numeric
token. -/
theorem intRepr_numTok (i : Int) : NumTok (intRepr i) := by
  rw [intRepr]
  by_cases h : i < 0
  · rw [if_pos h]
    refine ⟨by simp, ?_⟩
    intro c hc
    rw [show ("-" ++ String.mk (natChars i.natAbs)).data
        = '-' :: natChars i.natAbs by simp] at hc
    rcases List.mem_cons.mp hc with h1 | h1
    · subst h1; decide
    · have := natChars_digits i.natAbs c h1
      simp [isNumChar, this]
  · rw [if_neg h]
    refine ⟨natChars_ne_nil i.natAbs, ?_⟩
    intro c hc
    have := natChars_digits i.natAbs c hc
    simp [isNumChar, this]

/-- The number-to-`uint64`/`uint32` conversion `encoding/json` performs on
a decoded numeric field, on the decimal tokens at issue. -/
def parseNatTok (cs : List Char) : Option Nat :=
  if cs ≠ [] ∧ ∀ c ∈ cs, isDigitChar c = true then some (digitsVal cs) else none

/-- The number-to-`int64` conversion: optional minus sign, then digits. -/
def parseIntTok : List Char → Option Int
  | '-' :: cs => (parseNatTok cs).map (fun n => -(n : Int))
  | cs => (parseNatTok cs).map (fun n => (n : Int))

theorem parseNatTok_natChars (n : Nat) : parseNatTok (natChars n) = some n := by
  rw [parseNatTok, if_pos ⟨natChars_ne_nil n, natChars_digits n⟩, digitsVal_natChars]

theorem parseIntTok_intRepr (i : Int) : parseIntTok (intRepr i).data = some i := by
  rw [intRepr]
  by_cases h : i < 0
  · rw [if_pos h]
    rw [show ("-" ++ String.mk (natChars i.natAbs)).data = '-' :: natChars i.natAbs by simp]
    rw [show parseIntTok ('-' :: natChars i.natAbs)
        = (parseNatTok (natChars i.natAbs)).map (fun n => -(n : Int)) from rfl]
    rw [parseNatTok_natChars]
    show some (-(i.natAbs : Int)) = some i
    congr 1
    omega
  · rw [if_neg h]
    rw [show (String.mk (natChars i.natAbs)).data = natChars i.natAbs from rfl]
    rw [parseIntTok.eq_def]
    split
    · rename_i cs heq
      have hd := natChars_digits i.natAbs '-' (heq ▸ List.mem_cons_self _ _)
      simp [isDigitChar] at hd
    · rw [parseNatTok_natChars]
      show some ((i.natAbs : Int)) = some i
      congr 1
      omega

/-- `encoding/json` unmarshalling of a string struct field: an absent key
leaves the zero value `""`, a non-string value is an error. -/
def decStr (ms : List (String × Json)) (k : String) : Option String :=
  match List.lookup k ms with
  | none => some ""
  | some (.str s) => some s
  | some _ => none

/-- Unmarshalling of an `int64` struct field. -/
def decInt (ms : List (String × Json)) (k : String) : Option Int :=
  match List.lookup k ms with
  | none => some 0
  | some (.num t) => parseIntTok t.data
  | some _ => none

/-- Unmarshalling of an unsigned (`uint32`/`uint64`) struct field. -/
def decNat (ms : List (String × Json)) (k : String) : Option Nat :=
  match List.lookup k ms with
  | none => some 0
  | some (.num t) => parseNatTok t.data
  | some _ => none

/-- Element-wise decoding of a JSON array, failing when any element fails
(the behaviour of unmarshalling into a slice of structs). -/
def mapO (f : α → Option β) : List α → Option (List β)
  | [] => some []
  | x :: xs =>
      match f x, mapO f xs with
      | some y, some ys => some (y :: ys)
      | _, _ => none

theorem mapO_map {f : β → Option α} {g : α → β} :
    ∀ (l : List α), (∀ x ∈ l, f (g x) = some x) → mapO f (l.map g) = some l
  | [], _ => rfl
  | x :: xs, h => by
      rw [List.map_cons, mapO, h x (List.mem_cons_self _ _),
        mapO_map xs (fun y hy => h y (List.mem_cons_of_mem _ hy))]

/-- Unmarshalling one element of the `dirs` array into a `JsonDir`. -/
def decodeDir : Json → Option JsonDir
  | .obj ms => do
      let path ← decStr ms "path"
      let rel ← decStr ms "rel"
      let size ← decInt ms "size"
      let files ← decInt ms "files"
      let uid ← decNat ms "uid"
      let user ← decStr ms "user"
      let gid ← decNat ms "gid"
      let group ← decStr ms "group"
      some { path := path, rel := rel, size := size, files := files,
             uid := uid, user := user, gid := gid, group := group }
  | _ => none

/-- Unmarshalling one element of the `users` array into a `JsonUser`. -/
def decodeUser : Json → Option JsonUser
  | .obj ms => do
      let name ← decStr ms "name"
      let size ← decInt ms "size"
      let files ← decInt ms "files"
      let uid ← decNat ms "uid"
      some { name := name, size := size, files := files, uid := uid }
  | _ => none

/-- Unmarshalling one element of the `groups` array into a `JsonGroup`. -/
def decodeGroup : Json → Option JsonGroup
  | .obj ms => do
      let name ← decStr ms "name"
      let size ← decInt ms "size"
      let files ← decInt ms "files"
      let gid ← decNat ms "gid"
      some { name := name, size := size, files := files, gid := gid }
  | _ => none

theorem decodeDir_dirJson (e : JsonDir) : decodeDir (dirJson e) = some e := by
  by_cases h1 : e.uid = 0 <;> by_cases h2 : e.user = "" <;>
    by_cases h3 : e.gid = 0 <;> by_cases h4 : e.group = "" <;>
      simp [dirJson, h1, h2, h3, h4, decodeDir, decStr, decInt, decNat, List.lookup,
        parseIntTok_intRepr, natRepr, parseNatTok_natChars] <;>
      (cases e; simp_all)

theorem decodeUser_userJson (e : JsonUser) : decodeUser (userJson e) = some e := by
  by_cases h1 : e.uid = 0 <;>
    simp [userJson, h1, decodeUser, decStr, decInt, decNat, List.lookup,
      parseIntTok_intRepr, natRepr, parseNatTok_natChars] <;>
    (cases e; simp_all)

theorem decodeGroup_groupJson (e : JsonGroup) : decodeGroup (groupJson e) = some e := by
  by_cases h1 : e.gid = 0 <;>
    simp [groupJson, h1, decodeGroup, decStr, decInt, decNat, List.lookup,
      parseIntTok_intRepr, natRepr, parseNatTok_natChars] <;>
    (cases e; simp_all)

/-- The fields of the loaded `JsonOut` relevant to store reconstruction;
the `Stats` subtree is retained as its parsed value. -/
structure LoadedDoc where
  root : String
  stats : Json
  dirs : List JsonDir
  users : List JsonUser
  grps : List JsonGroup

/-- Unmarshalling an array-of-structs field: an absent key leaves a nil
slice, a non-array value is an error. -/
def decArrWith (dec : Json → Option α) (ms : List (String × Json)) (k : String) :
    Option (List α) :=
  match List.lookup k ms with
  | none => some []
  | some (.arr xs) => mapO dec xs
  | some _ => none

/-- Unmarshalling the top-level `JsonOut` object. -/
def decodeOut : Json → Option LoadedDoc
  | .obj ms => do
      let root ← decStr ms "root"
      let stats := (List.lookup "stats" ms).getD (.obj [])
      let dirs ← decArrWith decodeDir ms "dirs"
      let users ← decArrWith decodeUser ms "users"
      let grps ← decArrWith decodeGroup ms "groups"
      some { root := root, stats := stats, dirs := dirs, users := users, grps := grps }
  | _ => none

/-- `json.Decoder.Decode`: parse one JSON value from the byte stream
(a fuel of one more than the stream length always suffices) and unmarshal
it; anything after the first value is not read. -/
def decodeDoc (bs : List Char) : Option LoadedDoc :=
  match parseVal (bs.length + 1) bs with
  | some (j, _) => decodeOut j
  | none => none

theorem decodeOut_doc (root : String) (stats : Json) (ds : List JsonDir)
    (us : List JsonUser) (gs : List JsonGroup) :
    decodeOut (.obj [("root", Json.str root), ("stats", stats),
      ("dirs", Json.arr (ds.map dirJson)), ("users", Json.arr (us.map userJson)),
      ("groups", Json.arr (gs.map groupJson))])
      = some { root := root, stats := stats, dirs := ds, users := us, grps := gs } := by
  have hds : mapO decodeDir (ds.map dirJson) = some ds :=
    mapO_map ds (fun x _ => decodeDir_dirJson x)
  have hus : mapO decodeUser (us.map userJson) = some us :=
    mapO_map us (fun x _ => decodeUser_userJson x)
  have hgs : mapO decodeGroup (gs.map groupJson) = some gs :=
    mapO_map gs (fun x _ => decodeGroup_groupJson x)
  simp [decodeOut, decStr, decArrWith, List.lookup, hds, hus, hgs]

/-- A `bufio.Reader`: some bytes already buffered (read from the source
but not consumed by the client) and the bytes still in the source. -/
structure BufReader where
  buffered : List Char
  upstream : List Char

/-- `bufio.NewReader`: nothing buffered yet. -/
def mkBufReader (src : List Char) : BufReader := ⟨[], src⟩

/-- The bytes a client reading from the buffered reader will see. -/
def BufReader.remaining (r : BufReader) : List Char := r.buffered ++ r.upstream

/-- `bufio.Reader.Peek n`: fill the buffer from the source up to `n`
bytes and return them without consuming them. -/
def BufReader.peek (r : BufReader) (n : Nat) : List Char × BufReader :=
  let r2 : BufReader :=
    ⟨r.buffered ++ r.upstream.take (n - r.buffered.length),
     r.upstream.drop (n - r.buffered.length)⟩
  (r2.buffered.take n, r2)

/-- The two gzip magic bytes `0x1f 0x8b` (jsonio.go line 379). -/
def gzMagic1 : Char := Char.ofNat 0x1f

def gzMagic2 : Char := Char.ofNat 0x8b

/-- `LoadSummary` (jsonio.go lines 354-397) from the byte stream of the
named file (or stdin): wrap the source in a buffered reader, peek two
bytes, and route through a gzip decompressor (an external effect, passed
as a function that may fail) when and only when the peeked bytes are the
gzip magic; otherwise decode straight from the buffered reader. -/
def LoadSummary (gunzip : List Char → Option (List Char)) (src : List Char) :
    Option LoadedDoc :=
  let pr := (mkBufReader src).peek 2
  let isGz : Bool :=
    match pr.1 with
    | c1 :: c2 :: _ => c1 = gzMagic1 && c2 = gzMagic2
    | _ => false
  if isGz then
    match gunzip pr.2.remaining with
    | some plain => decodeDoc plain
    | none => none
  else
    decodeDoc pr.2.remaining

theorem bufPeek_fst (src : List Char) (n : Nat) :
    ((mkBufReader src).peek n).1 = src.take n := by
  simp [mkBufReader, BufReader.peek, List.take_take]

theorem bufPeek_remaining (src : List Char) (n : Nat) :
    ((mkBufReader src).peek n).2.remaining = src := by
  simp [mkBufReader, BufReader.peek, BufReader.remaining]

theorem loadSummary_route (gunzip : List Char → Option (List Char)) (src : List Char) :
    LoadSummary gunzip src =
      if src.take 2 = [gzMagic1, gzMagic2] then
        match gunzip src with
        | some plain => decodeDoc plain
        | none => none
      else decodeDoc src := by
  rw [LoadSummary]
  rw [show ((mkBufReader src).peek 2).2.remaining = src from bufPeek_remaining src 2]
  rw [show ((mkBufReader src).peek 2).1 = src.take 2 from bufPeek_fst src 2]
  match src with
  | [] => simp
  | [c] => simp
  | c1 :: c2 :: rest =>
      by_cases h1 : c1 = gzMagic1 <;> by_cases h2 : c2 = gzMagic2 <;>
        simp [List.take, h1, h2]

/-- C7: for every input source, the two-byte sniff of `LoadSummary` is a
buffered peek that returns exactly the first two bytes and consumes
nothing — the subsequent gzip or JSON decode sees the stream from its
first byte — and the bytes are routed through the gzip decompressor if
and only if they start with the magic prefix `0x1f 0x8b`; otherwise they
are parsed directly as JSON. -/
theorem loadSummary_sniffing (gunzip : List Char → Option (List Char)) (src : List Char) :
    ((mkBufReader src).peek 2).1 = src.take 2 ∧
    ((mkBufReader src).peek 2).2.remaining = src ∧
    (LoadSummary gunzip src =
      if src.take 2 = [gzMagic1, gzMagic2] then
        match gunzip src with
        | some plain => decodeDoc plain
        | none => none
      else decodeDoc src) ∧
    (src.take 2 = [gzMagic1, gzMagic2] ↔ ∃ t, src = gzMagic1 :: gzMagic2 :: t) := by
  refine ⟨bufPeek_fst src 2, bufPeek_remaining src 2, loadSummary_route gunzip src, ?_, ?_⟩
  · intro h
    cases src with
    | nil => simp at h
    | cons c1 t =>
        cases t with
        | nil => simp at h
        | cons c2 rest =>
            simp [List.take] at h
            exact ⟨rest, by rw [h.1, h.2]⟩
  · rintro ⟨t, rfl⟩
    simp [List.take]

/-- The string and pre-rendered numeral fields of the run metadata are
printable ASCII without characters the Go encoder would escape, and the
numeral tokens are numeric — true of everything the program itself puts
there (RFC3339 timestamps, `%.2f` renderings, duration strings, version
tags). -/
def StatsWF (st : StatsModel) : Prop :=
  StrPlain st.startedAt ∧ StrPlain st.endedAt ∧ NumTok st.runtimeSeconds ∧
  StrPlain st.runtime ∧ StrPlain st.lastGC ∧ NumTok st.gcCPUFraction ∧
  StrPlain st.version

instance (st : StatsModel) : Decidable (StatsWF st) := by
  unfold StatsWF
  infer_instance

theorem statsJson_wf (st : StatsModel) (h : StatsWF st) : WFJson (statsJson st) := by
  obtain ⟨h1, h2, h3, h4, h5, h6, h7⟩ := h
  show WFMems _
  by_cases hgc : st.lastGC = ""
  · rw [if_pos hgc]
    exact ⟨(by decide : StrPlain "started_at"), h1, (by decide : StrPlain "ended_at"), h2,
      (by decide : StrPlain "runtime_seconds"), h3, (by decide : StrPlain "runtime"), h4,
      (by decide : StrPlain "dirs_scanned"), intRepr_numTok _,
      (by decide : StrPlain "files_scanned"), intRepr_numTok _,
      (by decide : StrPlain "mem_alloc_bytes"), natRepr_numTok _,
      (by decide : StrPlain "total_alloc_bytes"), natRepr_numTok _,
      (by decide : StrPlain "heap_alloc_bytes"), natRepr_numTok _,
      (by decide : StrPlain "heap_sys_bytes"), natRepr_numTok _,
      (by decide : StrPlain "num_gc"), natRepr_numTok _,
      (by decide : StrPlain "pause_total_ns"), natRepr_numTok _,
      (by decide : StrPlain "gc_cpu_fraction"), h6, (by decide : StrPlain "heap_inuse_bytes"),
      natRepr_numTok _, (by decide : StrPlain "heap_idle_bytes"), natRepr_numTok _,
      (by decide : StrPlain "heap_released_bytes"), natRepr_numTok _,
      (by decide : StrPlain "next_gc_bytes"), natRepr_numTok _,
      (by decide : StrPlain "last_pause_ns"), natRepr_numTok _,
      (by decide : StrPlain "max_pause_ns"), natRepr_numTok _,
      (by decide : StrPlain "peak_alloc_bytes"), natRepr_numTok _,
      (by decide : StrPlain "peak_heap_alloc_bytes"), natRepr_numTok _,
      (by decide : StrPlain "version"), h7, trivial⟩
  · rw [if_neg hgc]
    exact ⟨(by decide : StrPlain "started_at"), h1, (by decide : StrPlain "ended_at"), h2,
      (by decide : StrPlain "runtime_seconds"), h3, (by decide : StrPlain "runtime"), h4,
      (by decide : StrPlain "dirs_scanned"), intRepr_numTok _,
      (by decide : StrPlain "files_scanned"), intRepr_numTok _,
      (by decide : StrPlain "mem_alloc_bytes"), natRepr_numTok _,
      (by decide : StrPlain "total_alloc_bytes"), natRepr_numTok _,
      (by decide : StrPlain "heap_alloc_bytes"), natRepr_numTok _,
      (by decide : StrPlain "heap_sys_bytes"), natRepr_numTok _,
      (by decide : StrPlain "num_gc"), natRepr_numTok _,
      (by decide : StrPlain "pause_total_ns"), natRepr_numTok _,
      (by decide : StrPlain "last_gc"), h5, (by decide : StrPlain "gc_cpu_fraction"), h6,
      (by decide : StrPlain "heap_inuse_bytes"), natRepr_numTok _,
      (by decide : StrPlain "heap_idle_bytes"), natRepr_numTok _,
      (by decide : StrPlain "heap_released_bytes"), natRepr_numTok _,
      (by decide : StrPlain "next_gc_bytes"), natRepr_numTok _,
      (by decide : StrPlain "last_pause_ns"), natRepr_numTok _,
      (by decide : StrPlain "max_pause_ns"), natRepr_numTok _,
      (by decide : StrPlain "peak_alloc_bytes"), natRepr_numTok _,
      (by decide : StrPlain "peak_heap_alloc_bytes"), natRepr_numTok _,
      (by decide : StrPlain "version"), h7, trivial⟩

theorem flat_mem_ite {c : Prop} [Decidable c] {x m : String × Json}
    (hm : m ∈ (if c then ([] : List (String × Json)) else [x])) : m = x := by
  split at hm
  · exact absurd hm (List.not_mem_nil m)
  · simpa using hm

theorem dirJson_flat (e : JsonDir) (hp : StrPlain e.path) (hr : StrPlain e.rel)
    (hu : StrPlain e.user) (hg : StrPlain e.group) : FlatPlain (dirJson e) := by
  refine ⟨by simp [dirJson], ?_⟩
  intro m hm
  simp only [List.append_assoc, List.mem_append, List.mem_cons, List.not_mem_nil,
    or_false] at hm
  rcases hm with (h | h | h | h) | h | h | h | h
  · subst h; exact ⟨(by decide : StrPlain "path"), hp⟩
  · subst h; exact ⟨(by decide : StrPlain "rel"), hr⟩
  · subst h; exact ⟨(by decide : StrPlain "size"), intRepr_numTok e.size⟩
  · subst h; exact ⟨(by decide : StrPlain "files"), intRepr_numTok e.files⟩
  · rw [flat_mem_ite h]; exact ⟨(by decide : StrPlain "uid"), natRepr_numTok e.uid⟩
  · rw [flat_mem_ite h]; exact ⟨(by decide : StrPlain "user"), hu⟩
  · rw [flat_mem_ite h]; exact ⟨(by decide : StrPlain "gid"), natRepr_numTok e.gid⟩
  · rw [flat_mem_ite h]; exact ⟨(by decide : StrPlain "group"), hg⟩

theorem userJson_flat (e : JsonUser) (hn : StrPlain e.name) : FlatPlain (userJson e) := by
  refine ⟨by simp [userJson], ?_⟩
  intro m hm
  simp only [List.append_assoc, List.mem_append, List.mem_cons, List.not_mem_nil,
    or_false] at hm
  rcases hm with (h | h | h) | h
  · subst h; exact ⟨(by decide : StrPlain "name"), hn⟩
  · subst h; exact ⟨(by decide : StrPlain "size"), intRepr_numTok e.size⟩
  · subst h; exact ⟨(by decide : StrPlain "files"), intRepr_numTok e.files⟩
  · rw [flat_mem_ite h]; exact ⟨(by decide : StrPlain "uid"), natRepr_numTok e.uid⟩

theorem groupJson_flat (e : JsonGroup) (hn : StrPlain e.name) : FlatPlain (groupJson e) := by
  refine ⟨by simp [groupJson], ?_⟩
  intro m hm
  simp only [List.append_assoc, List.mem_append, List.mem_cons, List.not_mem_nil,
    or_false] at hm
  rcases hm with (h | h | h) | h
  · subst h; exact ⟨(by decide : StrPlain "name"), hn⟩
  · subst h; exact ⟨(by decide : StrPlain "size"), intRepr_numTok e.size⟩
  · subst h; exact ⟨(by decide : StrPlain "files"), intRepr_numTok e.files⟩
  · rw [flat_mem_ite h]; exact ⟨(by decide : StrPlain "gid"), natRepr_numTok e.gid⟩

theorem streamRaw_take2 (root : String) (stats : Json) (dJ uJ gJ : List Json) :
    (streamRaw root stats dJ uJ gJ).take 2 = ['{', '\n'] := rfl

theorem streamRaw_parseVal (root : String) (stats : Json) (dJ uJ gJ : List Json)
    (hroot : StrPlain root) (hstats : WFJson stats)
    (hd : ∀ j ∈ dJ, FlatPlain j) (hu : ∀ j ∈ uJ, FlatPlain j)
    (hg : ∀ j ∈ gJ, FlatPlain j) :
    parseVal ((streamRaw root stats dJ uJ gJ).length + 1) (streamRaw root stats dJ uJ gJ)
      = some (.obj [("root", Json.str root), ("stats", stats), ("dirs", Json.arr dJ),
          ("users", Json.arr uJ), ("groups", Json.arr gJ)], ['\n']) := by
  obtain ⟨tail, hb, he⟩ := streamRaw_emits root stats dJ uJ gJ hroot hstats hd hu hg
  have hw := emits_weight he
  rw [hb]
  refine (parse_emits_all _).1 _ _ he ['\n'] ?_ numSafe_nl
  simp only [List.length_cons] at hw
  simp only [List.length_append, List.length_cons, List.length_nil]
  omega

theorem lookup_cons {β : Type _} (k a : String) (b : β) (l : List (String × β)) :
    List.lookup k ((a, b) :: l) = if k = a then some b else List.lookup k l := by
  by_cases h : k = a
  · rw [if_pos h]
    subst h
    simp [List.lookup]
  · rw [if_neg h]
    have hb : (k == a) = false := by simp [h]
    simp [List.lookup, hb]

theorem perm_lookup {β : Type _} {l1 l2 : List (String × β)} (hp : l1.Perm l2)
    (hn : (l1.map Prod.fst).Nodup) (k : String) :
    List.lookup k l1 = List.lookup k l2 := by
  induction hp with
  | nil => rfl
  | cons x h ih =>
      obtain ⟨a, b⟩ := x
      rw [List.map_cons, List.nodup_cons] at hn
      rw [lookup_cons, lookup_cons, ih hn.2]
  | swap x y l =>
      obtain ⟨a, b⟩ := x
      obtain ⟨c, d⟩ := y
      rw [List.map_cons, List.map_cons, List.nodup_cons] at hn
      have hca : c ≠ a := by
        intro hca
        exact hn.1 (by rw [hca]; exact List.mem_cons_self _ _)
      rw [lookup_cons, lookup_cons, lookup_cons, lookup_cons]
      by_cases h1 : k = c <;> by_cases h2 : k = a
      · exact absurd (h1.symm.trans h2) hca
      all_goals simp [h1, h2, hca, Ne.symm hca]
  | trans h1 h2 ih1 ih2 =>
      have hn2 := ((h1.map Prod.fst).nodup_iff).mp hn
      rw [ih1 hn, ih2 hn2]

/-- Re-deriving a directory store from a loaded document: key each entry
by its `rel` field (the reconstruction the repository's own round-trip
test performs with `m[d.Rel] = d`). -/
def dirStoreOf (ds : List JsonDir) : List (String × DirStat) :=
  ds.map (fun e => (e.rel, { size := e.size, files := e.files }))

/-- Re-deriving a user store: key each entry by its `name` field. -/
def userStoreOf (us : List JsonUser) : List (String × UserStat) :=
  us.map (fun e => (e.name, { size := e.size, files := e.files }))

/-- Re-deriving a group store: key each entry by its `name` field. -/
def groupStoreOf (gs : List JsonGroup) : List (String × GroupStat) :=
  gs.map (fun e => (e.name, { size := e.size, files := e.files }))

/-- The name the users collection loop attaches to a stats key: resolve by
name, then by id, else the key itself (jsonio.go lines 191-199). -/
def resolveUserName (env : CodecEnv) (k : String) : String :=
  match env.lookupUser k with
  | some ent => ent.name
  | none =>
      match env.lookupUserId k with
      | some ent => ent.name
      | none => k

/-- The name the groups collection loop attaches to a stats key
(jsonio.go lines 211-219). -/
def resolveGroupName (env : CodecEnv) (k : String) : String :=
  match env.lookupGroup k with
  | some ent => ent.name
  | none =>
      match env.lookupGroupId k with
      | some ent => ent.name
      | none => k

theorem dirStoreOf_collect (env : CodecEnv) (rootAbs : String) :
    ∀ (l : List (String × DirStat)), dirStoreOf (l.map (collectDir env rootAbs)) = l
  | [] => rfl
  | e :: t => by
      have ih := dirStoreOf_collect env rootAbs t
      have hh : ((collectDir env rootAbs e).rel,
          ({ size := (collectDir env rootAbs e).size,
             files := (collectDir env rootAbs e).files } : DirStat)) = e := by
        cases hdo : env.dirOwner (joinPath rootAbs e.1) with
        | none => simp [collectDir, hdo]
        | some o => simp [collectDir, hdo]
      calc dirStoreOf ((e :: t).map (collectDir env rootAbs))
          = ((collectDir env rootAbs e).rel,
              ({ size := (collectDir env rootAbs e).size,
                 files := (collectDir env rootAbs e).files } : DirStat))
            :: dirStoreOf (t.map (collectDir env rootAbs)) := rfl
        _ = e :: t := by rw [hh, ih]

theorem userStoreOf_collect (env : CodecEnv) :
    ∀ (l : List (String × UserStat)),
      userStoreOf (l.map (collectUser env))
        = l.map (fun e => (resolveUserName env e.1, e.2))
  | [] => rfl
  | e :: t => by
      have ih := userStoreOf_collect env t
      have hh : ((collectUser env e).name,
          ({ size := (collectUser env e).size,
             files := (collectUser env e).files } : UserStat))
          = (resolveUserName env e.1, e.2) := by
        cases hlu : env.lookupUser e.1 with
        | some ent => simp [collectUser, resolveUserName, hlu]
        | none =>
            cases hlui : env.lookupUserId e.1 with
            | some ent => simp [collectUser, resolveUserName, hlu, hlui]
            | none => simp [collectUser, resolveUserName, hlu, hlui]
      calc userStoreOf ((e :: t).map (collectUser env))
          = ((collectUser env e).name,
              ({ size := (collectUser env e).size,
                 files := (collectUser env e).files } : UserStat))
            :: userStoreOf (t.map (collectUser env)) := rfl
        _ = (e :: t).map (fun e => (resolveUserName env e.1, e.2)) := by
            rw [hh, ih, List.map_cons]

theorem groupStoreOf_collect (env : CodecEnv) :
    ∀ (l : List (String × GroupStat)),
      groupStoreOf (l.map (collectGroup env))
        = l.map (fun e => (resolveGroupName env e.1, e.2))
  | [] => rfl
  | e :: t => by
      have ih := groupStoreOf_collect env t
      have hh : ((collectGroup env e).name,
          ({ size := (collectGroup env e).size,
             files := (collectGroup env e).files } : GroupStat))
          = (resolveGroupName env e.1, e.2) := by
        cases hlg : env.lookupGroup e.1 with
        | some ent => simp [collectGroup, resolveGroupName, hlg]
        | none =>
            cases hlgi : env.lookupGroupId e.1 with
            | some ent => simp [collectGroup, resolveGroupName, hlg, hlgi]
            | none => simp [collectGroup, resolveGroupName, hlg, hlgi]
      calc groupStoreOf ((e :: t).map (collectGroup env))
          = ((collectGroup env e).name,
              ({ size := (collectGroup env e).size,
                 files := (collectGroup env e).files } : GroupStat))
            :: groupStoreOf (t.map (collectGroup env)) := rfl
        _ = (e :: t).map (fun e => (resolveGroupName env e.1, e.2)) := by
            rw [hh, ih, List.map_cons]

/-- C1: encoding a snapshot with `StreamSummary` and parsing the produced
bytes with `LoadSummary` succeeds and yields a document whose root, stats
subtree, and dirs/users/groups arrays are exactly the encoded ones; every
dirs entry keeps its original map key in `rel` (with `path` derived from
it), and the stores re-derived from the document by keying dirs on `rel`
and users/groups on `name` are lookup-equal to the original aggregate
maps.  Side conditions: the strings involved are printable ASCII free of
characters the encoder would escape, the map keys are distinct (Go map
keys always are), and the user/group keys resolve to themselves (the scan
stores resolved names as keys, so re-resolving is stable). -/
theorem stream_load_roundtrip (gunzip : List Char → Option (List Char))
    (env : CodecEnv) (rootAbs : String) (stats : StatsModel)
    (dirStats : List (String × DirStat)) (userStats : List (String × UserStat))
    (groupStats : List (String × GroupStat))
    (hroot : StrPlain rootAbs) (hst : StatsWF stats)
    (hdp : ∀ e ∈ dirStats.map (collectDir env rootAbs),
      StrPlain e.path ∧ StrPlain e.rel ∧ StrPlain e.user ∧ StrPlain e.group)
    (hup : ∀ e ∈ userStats.map (collectUser env), StrPlain e.name)
    (hgp : ∀ e ∈ groupStats.map (collectGroup env), StrPlain e.name)
    (hdnod : (dirStats.map Prod.fst).Nodup)
    (hunod : (userStats.map Prod.fst).Nodup)
    (hgnod : (groupStats.map Prod.fst).Nodup)
    (hustab : ∀ k ∈ userStats.map Prod.fst, resolveUserName env k = k)
    (hgstab : ∀ k ∈ groupStats.map Prod.fst, resolveGroupName env k = k) :
    ∃ ld : LoadedDoc,
      LoadSummary gunzip
          (StreamSummary env rootAbs stats dirStats userStats groupStats) = some ld ∧
      ld.root = rootAbs ∧ ld.stats = statsJson stats ∧
      ld.dirs = (streamSummaryDoc env rootAbs stats dirStats userStats groupStats).dirs ∧
      ld.users = (streamSummaryDoc env rootAbs stats dirStats userStats groupStats).users ∧
      ld.grps = (streamSummaryDoc env rootAbs stats dirStats userStats groupStats).grps ∧
      (∀ e ∈ ld.dirs, e.rel ∈ dirStats.map Prod.fst ∧ e.path = joinPath rootAbs e.rel) ∧
      (∀ k, List.lookup k (dirStoreOf ld.dirs) = List.lookup k dirStats) ∧
      (∀ k, List.lookup k (userStoreOf ld.users) = List.lookup k userStats) ∧
      (∀ k, List.lookup k (groupStoreOf ld.grps) = List.lookup k groupStats) := by
  have hflatd : ∀ j ∈ (sortDirs (dirStats.map (collectDir env rootAbs))).map dirJson,
      FlatPlain j := by
    intro j hj
    obtain ⟨e, he, rfl⟩ := List.mem_map.mp hj
    have he2 : e ∈ dirStats.map (collectDir env rootAbs) :=
      ((List.mergeSort_perm _ _).mem_iff).mp he
    obtain ⟨h1, h2, h3, h4⟩ := hdp e he2
    exact dirJson_flat e h1 h2 h3 h4
  have hflatu : ∀ j ∈ (sortUsers (userStats.map (collectUser env))).map userJson,
      FlatPlain j := by
    intro j hj
    obtain ⟨e, he, rfl⟩ := List.mem_map.mp hj
    have he2 : e ∈ userStats.map (collectUser env) :=
      ((List.mergeSort_perm _ _).mem_iff).mp he
    exact userJson_flat e (hup e he2)
  have hflatg : ∀ j ∈ (sortGroups (groupStats.map (collectGroup env))).map groupJson,
      FlatPlain j := by
    intro j hj
    obtain ⟨e, he, rfl⟩ := List.mem_map.mp hj
    have he2 : e ∈ groupStats.map (collectGroup env) :=
      ((List.mergeSort_perm _ _).mem_iff).mp he
    exact groupJson_flat e (hgp e he2)
  have hparse := streamRaw_parseVal rootAbs (statsJson stats)
    ((sortDirs (dirStats.map (collectDir env rootAbs))).map dirJson)
    ((sortUsers (userStats.map (collectUser env))).map userJson)
    ((sortGroups (groupStats.map (collectGroup env))).map groupJson)
    hroot (statsJson_wf stats hst) hflatd hflatu hflatg
  have hload : LoadSummary gunzip
      (StreamSummary env rootAbs stats dirStats userStats groupStats)
      = some { root := rootAbs, stats := statsJson stats,
               dirs := sortDirs (dirStats.map (collectDir env rootAbs)),
               users := sortUsers (userStats.map (collectUser env)),
               grps := sortGroups (groupStats.map (collectGroup env)) } := by
    rw [show StreamSummary env rootAbs stats dirStats userStats groupStats
        = streamRaw rootAbs (statsJson stats)
            ((sortDirs (dirStats.map (collectDir env rootAbs))).map dirJson)
            ((sortUsers (userStats.map (collectUser env))).map userJson)
            ((sortGroups (groupStats.map (collectGroup env))).map groupJson) from rfl]
    rw [loadSummary_route]
    rw [if_neg (by rw [streamRaw_take2]; decide)]
    simp only [decodeDoc, hparse]
    exact decodeOut_doc rootAbs (statsJson stats) _ _ _
  refine ⟨_, hload, rfl, rfl, rfl, rfl, rfl, ?_, ?_, ?_, ?_⟩
  · intro e he
    have he2 : e ∈ dirStats.map (collectDir env rootAbs) :=
      ((List.mergeSort_perm _ _).mem_iff).mp he
    obtain ⟨p, hp, rfl⟩ := List.mem_map.mp he2
    refine ⟨?_, ?_⟩
    · rw [collectDir_rel]
      exact List.mem_map.mpr ⟨p, hp, rfl⟩
    · rw [collectDir_path, collectDir_rel]
  · intro k
    have hcoll := dirStoreOf_collect env rootAbs dirStats
    have hperm0 : (dirStoreOf (sortDirs (dirStats.map (collectDir env rootAbs)))).Perm
        (dirStoreOf (dirStats.map (collectDir env rootAbs))) :=
      (List.mergeSort_perm _ _).map _
    have hperm := hcoll ▸ hperm0
    exact perm_lookup hperm (((hperm.map Prod.fst).nodup_iff).mpr hdnod) k
  · intro k
    have hstab2 : userStats.map (fun e => (resolveUserName env e.1, e.2)) = userStats := by
      have h : ∀ e ∈ userStats, (resolveUserName env e.1, e.2) = e := by
        intro e he
        rw [hustab e.1 (List.mem_map.mpr ⟨e, he, rfl⟩)]
      rw [List.map_congr_left h]
      exact List.map_id userStats
    have hcoll : userStoreOf (userStats.map (collectUser env)) = userStats := by
      rw [userStoreOf_collect, hstab2]
    have hperm0 : (userStoreOf (sortUsers (userStats.map (collectUser env)))).Perm
        (userStoreOf (userStats.map (collectUser env))) :=
      (List.mergeSort_perm _ _).map _
    have hperm := hcoll ▸ hperm0
    exact perm_lookup hperm (((hperm.map Prod.fst).nodup_iff).mpr hunod) k
  · intro k
    have hstab2 : groupStats.map (fun e => (resolveGroupName env e.1, e.2)) = groupStats := by
      have h : ∀ e ∈ groupStats, (resolveGroupName env e.1, e.2) = e := by
        intro e he
        rw [hgstab e.1 (List.mem_map.mpr ⟨e, he, rfl⟩)]
      rw [List.map_congr_left h]
      exact List.map_id groupStats
    have hcoll : groupStoreOf (groupStats.map (collectGroup env)) = groupStats := by
      rw [groupStoreOf_collect, hstab2]
    have hperm0 : (groupStoreOf (sortGroups (groupStats.map (collectGroup env)))).Perm
        (groupStoreOf (groupStats.map (collectGroup env))) :=
      (List.mergeSort_perm _ _).map _
    have hperm := hcoll ▸ hperm0
    exact perm_lookup hperm (((hperm.map Prod.fst).nodup_iff).mpr hgnod) k

/-- Witness for `stream_load_roundtrip`: a one-entry store per map, an
environment in which every external lookup fails, and a decompressor that
is never invoked. -/
theorem stream_load_roundtrip_witness :
    ∃ ld : LoadedDoc,
      LoadSummary (fun _ => none)
          (StreamSummary emptyEnv "/r" plainStats [(".", { size := 3, files := 1 })]
            [("u", { size := 3, files := 1 })] [("g", { size := 3, files := 1 })])
        = some ld ∧
      ld.root = "/r" ∧ ld.stats = statsJson plainStats ∧
      ld.dirs = (streamSummaryDoc emptyEnv "/r" plainStats
          [(".", { size := 3, files := 1 })] [("u", { size := 3, files := 1 })]
          [("g", { size := 3, files := 1 })]).dirs ∧
      ld.users = (streamSummaryDoc emptyEnv "/r" plainStats
          [(".", { size := 3, files := 1 })] [("u", { size := 3, files := 1 })]
          [("g", { size := 3, files := 1 })]).users ∧
      ld.grps = (streamSummaryDoc emptyEnv "/r" plainStats
          [(".", { size := 3, files := 1 })] [("u", { size := 3, files := 1 })]
          [("g", { size := 3, files := 1 })]).grps ∧
      (∀ e ∈ ld.dirs,
        e.rel ∈ [(".", ({ size := 3, files := 1 } : DirStat))].map Prod.fst ∧
        e.path = joinPath "/r" e.rel) ∧
      (∀ k, List.lookup k (dirStoreOf ld.dirs)
        = List.lookup k [(".", ({ size := 3, files := 1 } : DirStat))]) ∧
      (∀ k, List.lookup k (userStoreOf ld.users)
        = List.lookup k [("u", ({ size := 3, files := 1 } : UserStat))]) ∧
      (∀ k, List.lookup k (groupStoreOf ld.grps)
        = List.lookup k [("g", ({ size := 3, files := 1 } : GroupStat))]) :=
  stream_load_roundtrip (fun _ => none) emptyEnv "/r" plainStats
    [(".", { size := 3, files := 1 })] [("u", { size := 3, files := 1 })]
    [("g", { size := 3, files := 1 })]
    (by decide) (by decide) (by decide) (by decide) (by decide)
    (by decide) (by decide) (by decide) (by decide) (by decide)
